import Mathlib

/-!
# Verification of the cel-go presence-test indexer (`ext/indexer`)

This file shallowly embeds the core of the cel-go AST indexer:

* the field trie and frequency queue (`fieldTrie.add`, `fieldTrie.sortedPresenceFields`,
  `fieldFrequencyQueue.Less`),
* the presence-test locator (`presenceTestMatcher`, `isFieldQualification`,
  `qualifiedFieldName`),
* the mask planner and indexer driver (`computeEffectiveMask`, `GenerateIndex`),
* the presence rewriter (`newPresenceRewriter`, `presenceRewriter.Optimize`),
* the indexed program (`NewIndexedProgram`, `IndexedProgram.Eval`),

together with models of the external collaborators the core consumes (the CEL
evaluator, the constant folder, the static optimizer pipeline and the attribute
factory), which are out of scope of the repository and are modelled from the
specification where noted.

Modelling conventions:

* Go `int64` node ids are modelled as `Nat` (ids are parser-assigned positive
  numbers; `0` is the "unset" sentinel exactly as in the Go code).
* Go `uint8` masks are modelled as `Nat`; the selected-field list has length at
  most `maxFieldPatterns = 4`, so every mask is below `2^4 = 16 < 256` and the
  `uint8` truncations in the Go code are the identity on the values involved.
* Go maps are modelled as association lists: `alookup` returns the binding of a
  key, `ainsert` overwrites it (`m[k] = v`), and `alookupD` is a Go map read
  with the zero-value default.  The Go code never iterates over these maps
  except in `sortedPresenceFields`, where the iteration order is absorbed by
  the total sort that follows.
* Dotted field paths: the Go code passes paths as dotted strings and re-splits
  them on `.`; CEL field segments never contain a dot, so a dotted string is
  isomorphic to its list of segments.  We model paths as segment lists
  (`List String`) throughout; `qualifiedFieldPath` is `qualifiedFieldName`
  composed with this isomorphism, and the trie (whose Go `add` splits its
  argument before doing anything else) consumes segment lists directly.
-/

namespace CelIndexer

/-! ## Association lists (Go `map` model) -/

/-- Lookup in an association list (first binding wins, as overwrites are
performed in place by `ainsert`). Models a Go map read `v, ok := m[k]`. -/
def alookup {α β : Type} [DecidableEq α] : List (α × β) → α → Option β
  | [], _ => none
  | (k1, v1) :: rest, k => if k = k1 then some v1 else alookup rest k

/-- Insert/overwrite in an association list. Models a Go map write `m[k] = v`. -/
def ainsert {α β : Type} [DecidableEq α] : List (α × β) → α → β → List (α × β)
  | [], k, v => [(k, v)]
  | (k1, v1) :: rest, k, v =>
    if k = k1 then (k, v) :: rest else (k1, v1) :: ainsert rest k v

/-- Go map read with the zero-value default (`idx := m[mask]` yields `0` when
the key is absent). -/
def alookupD {α β : Type} [DecidableEq α] (m : List (α × β)) (k : α) (d : β) : β :=
  (alookup m k).getD d

/-- The keys of an association list. -/
def akeys {α β : Type} (m : List (α × β)) : List α := m.map Prod.fst

/-! ## Values

Modelled from the spec: the external CEL value space, restricted to the kinds
the indexer's contracts exercise (booleans produced by presence tests, string
keyed maps probed by the attribute factory, and ints/strings as payloads). -/

inductive Val where
  | vbool (b : Bool)
  | vint (n : Int)
  | vstr (s : String)
  | vmap (entries : List (String × Val))

mutual

def decEqVal : (a b : Val) → Decidable (a = b)
  | .vbool a, .vbool b =>
    match decEq a b with
    | isTrue h => isTrue (by rw [h])
    | isFalse h => isFalse (fun hh => h (by cases hh; rfl))
  | .vint a, .vint b =>
    match decEq a b with
    | isTrue h => isTrue (by rw [h])
    | isFalse h => isFalse (fun hh => h (by cases hh; rfl))
  | .vstr a, .vstr b =>
    match decEq a b with
    | isTrue h => isTrue (by rw [h])
    | isFalse h => isFalse (fun hh => h (by cases hh; rfl))
  | .vmap a, .vmap b =>
    match decEqValEntries a b with
    | isTrue h => isTrue (by rw [h])
    | isFalse h => isFalse (fun hh => h (by cases hh; rfl))
  | .vbool _, .vint _ => isFalse nofun
  | .vbool _, .vstr _ => isFalse nofun
  | .vbool _, .vmap _ => isFalse nofun
  | .vint _, .vbool _ => isFalse nofun
  | .vint _, .vstr _ => isFalse nofun
  | .vint _, .vmap _ => isFalse nofun
  | .vstr _, .vbool _ => isFalse nofun
  | .vstr _, .vint _ => isFalse nofun
  | .vstr _, .vmap _ => isFalse nofun
  | .vmap _, .vbool _ => isFalse nofun
  | .vmap _, .vint _ => isFalse nofun
  | .vmap _, .vstr _ => isFalse nofun

def decEqValEntries : (a b : List (String × Val)) → Decidable (a = b)
  | [], [] => isTrue rfl
  | [], _ :: _ => isFalse nofun
  | _ :: _, [] => isFalse nofun
  | (k1, v1) :: r1, (k2, v2) :: r2 =>
    match decEq k1 k2 with
    | isFalse h => isFalse (fun hh => by
        injection hh with h1 h2
        injection h1 with hk hv
        exact h hk)
    | isTrue hk =>
      match decEqVal v1 v2 with
      | isFalse h => isFalse (fun hh => by
          injection hh with h1 h2
          injection h1 with hk hv
          exact h hv)
      | isTrue hv =>
        match decEqValEntries r1 r2 with
        | isFalse h => isFalse (fun hh => by
            injection hh with h1 h2
            exact h h2)
        | isTrue hr => isTrue (by rw [hk, hv, hr])

end

instance : DecidableEq Val := decEqVal

/-- An activation: the input binding consumed through `lookup(name)`.
Modelled from the spec: `interpreter.NewActivation` over a string-keyed map. -/
def Activation : Type := List (String × Val)

/-! ## Expressions

Modelled from the spec: the external CEL AST surface consumed by the indexer —
a closed sum with identifiers, field selections carrying the `isTestOnly`
presence flag, calls (by operator name, restricted to the unary, binary and
ternary call shapes that the indexer's operator set uses), and literals.
Every node has a node id, `0` meaning "unset".  (CEL list, map, struct and
comprehension nodes play no role in any of the verified contracts and are
omitted from the embedding.) -/

inductive Expr where
  | ident (eid : Nat) (name : String)
  | lit (eid : Nat) (v : Val)
  | select (eid : Nat) (operand : Expr) (field : String) (testOnly : Bool)
  | unop (eid : Nat) (fn : String) (arg : Expr)
  | binop (eid : Nat) (fn : String) (lhs rhs : Expr)
  | cond (eid : Nat) (cnd thn els : Expr)
deriving DecidableEq

/-- The node id of an expression (`e.ID()` in Go). -/
def Expr.eidOf : Expr → Nat
  | .ident i _ => i
  | .lit i _ => i
  | .select i _ _ _ => i
  | .unop i _ _ => i
  | .binop i _ _ _ => i
  | .cond i _ _ _ => i

/-! ## The reference evaluator

Modelled from the spec: the external CEL evaluator over map data, for the
operators appearing in indexed expressions.  CEL logical operators are
commutative with error absorption: `&&` is `false` if either side is `false`,
`true` if both are `true`, and an error otherwise; dually for `||`.  The
ternary evaluates only the selected branch; a non-boolean condition is an
error.  A non-presence field selection on a map errors when the key is
missing (`no such key`); a presence-test selection yields whether the key is
present.  Any selection on a non-map value is an error, as is an unbound
identifier (`no such attribute`) or an unknown call.  Errors are modelled
opaquely as `none`. -/

def andVals : Option Val → Option Val → Option Val
  | some (.vbool false), _ => some (.vbool false)
  | _, some (.vbool false) => some (.vbool false)
  | some (.vbool true), some (.vbool true) => some (.vbool true)
  | _, _ => none

def orVals : Option Val → Option Val → Option Val
  | some (.vbool true), _ => some (.vbool true)
  | _, some (.vbool true) => some (.vbool true)
  | some (.vbool false), some (.vbool false) => some (.vbool false)
  | _, _ => none

/-- Negation as a value operation (`!_`); non-boolean arguments error. -/
def notVal : Option Val → Option Val
  | some (.vbool b) => some (.vbool (!b))
  | _ => none

def evalExpr (act : Activation) : Expr → Option Val
  | .ident _ n => alookup act n
  | .lit _ v => some v
  | .select _ op f tst =>
    match evalExpr act op with
    | some (.vmap m) =>
      if tst then some (.vbool (alookup m f).isSome) else alookup m f
    | _ => none
  | .unop _ fn a =>
    if fn = "!_" then notVal (evalExpr act a) else none
  | .binop _ fn a b =>
    if fn = "_&&_" then andVals (evalExpr act a) (evalExpr act b)
    else if fn = "_||_" then orVals (evalExpr act a) (evalExpr act b)
    else none
  | .cond _ c t e =>
    match evalExpr act c with
    | some (.vbool true) => evalExpr act t
    | some (.vbool false) => evalExpr act e
    | _ => none

/-! ## Presence-test locator (`indexer.go`: `presenceTestMatcher`,
`isFieldQualification`, `qualifiedFieldName`) -/

/-- `isFieldQualification`, phrased on the *operand* of the select under test
(the Go version receives the `SelectExpr` and inspects `sel.Operand()`): an
identifier, or a field selection whose own operand is again a field
qualification.  Anything else disqualifies. -/
def isFieldQualification : Expr → Bool
  | .ident _ _ => true
  | .select _ op _ _ => isFieldQualification op
  | _ => false

/-- `presenceTestMatcher`: a select flagged test-only whose operand is a pure
field-qualification chain. -/
def presenceTestMatcher : Expr → Bool
  | .select _ op _ tst => tst && isFieldQualification op
  | _ => false

/-- `qualifiedFieldName` restricted to the operand chain, as a segment list:
the Go function returns `root.f1.….fk` for the operand, to which the select's
own field name is appended by the caller. -/
def qualifiedFieldPathOp : Expr → List String
  | .ident _ n => [n]
  | .select _ op f _ => qualifiedFieldPathOp op ++ [f]
  | _ => []

/-- The full qualified path of a presence test (`qualifiedFieldName` of the
select, as a segment list): operand chain plus the select's field name. -/
def qualifiedFieldPath : Expr → List String
  | .select _ op f _ => qualifiedFieldPathOp op ++ [f]
  | _ => []

/-- `ast.MatchDescendants(root, p)`: every node of the tree (the root
included) satisfying `p`, in preorder.  Modelled from the spec: the AST
navigation utility supplied by the external AST package. -/
def matchDescendants (p : Expr → Bool) : Expr → List Expr
  | .ident i n => if p (.ident i n) then [.ident i n] else []
  | .lit i v => if p (.lit i v) then [.lit i v] else []
  | .select i op f t =>
    (if p (.select i op f t) then [.select i op f t] else []) ++ matchDescendants p op
  | .unop i f a =>
    (if p (.unop i f a) then [.unop i f a] else []) ++ matchDescendants p a
  | .binop i f a b =>
    (if p (.binop i f a b) then [.binop i f a b] else []) ++
      matchDescendants p a ++ matchDescendants p b
  | .cond i c t e =>
    (if p (.cond i c t e) then [.cond i c t e] else []) ++
      matchDescendants p c ++ matchDescendants p t ++ matchDescendants p e

/-! ## Field trie and frequency queue (`trie.go`) -/

/-- `fieldTrie`: segment, frequency, terminating presence-test id (`0` unless
a presence test ends here), and children keyed by segment.  The Go `parent`
pointer exists only to let `fieldName()` rebuild the dotted path; the model
instead passes the path down during collection. -/
inductive FieldTrie where
  | mk (fieldSegment : String) (frequency : Nat) (tid : Nat)
       (children : List (String × FieldTrie))

def FieldTrie.fieldSegment : FieldTrie → String | .mk s _ _ _ => s

def FieldTrie.frequency : FieldTrie → Nat | .mk _ f _ _ => f

def FieldTrie.tid : FieldTrie → Nat | .mk _ _ i _ => i

def FieldTrie.children : FieldTrie → List (String × FieldTrie) | .mk _ _ _ c => c

/-- `newFieldTrie()`: the empty root. -/
def newFieldTrie : FieldTrie := .mk "" 0 0 []

/-- `fieldTrie.add(field, id)` after the initial `strings.Split(field, ".")`:
descend creating missing children, increment `frequency` on every node
visited along the path, and set `id` on the terminal node (overwriting any
prior id). -/
def FieldTrie.addSegs : FieldTrie → List String → Nat → FieldTrie
  | .mk seg fr _ ch, [], pid => .mk seg fr pid ch
  | .mk seg fr tid ch, s :: rest, pid =>
    let child := match alookup ch s with
      | some c => c
      | none => .mk s 0 0 []
    let child := FieldTrie.mk child.fieldSegment (child.frequency + 1) child.tid child.children
    let child := child.addSegs rest pid
    .mk seg fr tid (ainsert ch s child)

/-- Build a trie from a list of `(path, id)` additions. -/
def buildTrie (adds : List (List String × Nat)) : FieldTrie :=
  adds.foldl (fun t a => t.addSegs a.1 a.2) newFieldTrie

/-- `fieldFrequency`: one record per located presence field. `path` is the
Go `field` dotted string as its segment list. -/
structure FieldFrequency where
  fid : Nat
  parentID : Nat
  path : List String
  frequency : Nat
deriving DecidableEq

mutual

/-- The recursive collection pass of `sortedPresenceFields`: for every child
with a nonzero id emit a record whose `parentID` is the id of the node it
hangs off, then recurse.  `pfx` is the path of the current node (the Go code
recovers it through the `parent` pointers in `fieldName()`). -/
def FieldTrie.collectFields : FieldTrie → List String → List FieldFrequency
  | .mk _ _ tid ch, pfx => collectChildren tid pfx ch

/-- The traversal of one children list during collection. -/
def collectChildren : Nat → List String → List (String × FieldTrie) → List FieldFrequency
  | _, _, [] => []
  | tid, pfx, (s, c) :: rest =>
    ((if c.tid ≠ 0 then [⟨c.tid, tid, pfx ++ [s], c.frequency⟩] else []) ++
      c.collectFields (pfx ++ [s])) ++ collectChildren tid pfx rest

end

/-- `fieldFrequencyQueue.Less` as a (total, transitive) relation: higher
frequency first, ties broken by ascending id. -/
def ffLE (a b : FieldFrequency) : Prop :=
  b.frequency < a.frequency ∨ (a.frequency = b.frequency ∧ a.fid ≤ b.fid)

instance : DecidableRel ffLE := fun a b => by
  unfold ffLE; infer_instance

instance : IsTotal FieldFrequency ffLE where
  total a b := by unfold ffLE; omega

instance : IsTrans FieldFrequency ffLE where
  trans a b c hab hbc := by unfold ffLE at *; omega

/-- `fieldTrie.sortedPresenceFields`: collect all records and emit them in
`Less` order.  The Go code pushes every record into a `container/heap`
max-heap and pops it dry, which enumerates the records sorted by
`frequency DESC, id ASC`; when the `(frequency, id)` keys are pairwise
distinct (ids are distinct for well-formed ASTs) this enumeration is the
unique `ffLE`-sorted permutation, which `insertionSort` also produces. -/
def sortedPresenceFields (t : FieldTrie) : List FieldFrequency :=
  List.insertionSort ffLE (t.collectFields [])

/-! ## Field selection (`indexer.go`: `findFrequentPresenceFields`) -/

/-- `maxFieldPatterns`: compile-time cap on the number of selected fields. -/
def maxFieldPatterns : Nat := 4

/-- The `(path, id)` additions fed to the trie: one `add(qualifiedFieldName(pt),
pt.ID())` per located presence test. -/
def presenceAdds (a : Expr) : List (List String × Nat) :=
  (matchDescendants presenceTestMatcher a).map (fun pt => (qualifiedFieldPath pt, pt.eidOf))

/-- `indexer.findFrequentPresenceFields`: locate the presence tests, build the
trie, extract the sorted records and keep the top `maxFieldPatterns`. -/
def findFrequentPresenceFields (a : Expr) : List FieldFrequency :=
  (sortedPresenceFields (buildTrie (presenceAdds a))).take maxFieldPatterns

/-! ## Mask planner (`indexer.go`: `computeEffectiveMask`) -/

/-- The loop body sequence of `computeEffectiveMask`: `i` is the position of
the head of the remaining field list, `updates` the `decided` map so far and
`eff` the effective bits accumulated so far. -/
def effLoop (mask : Nat) : List FieldFrequency → Nat → List (Nat × Bool) → Nat → Nat
  | [], _, _, eff => eff
  | pt :: rest, i, updates, eff =>
    let updates := ainsert updates pt.fid false
    match alookup updates pt.parentID with
    | some false => effLoop mask rest (i + 1) updates eff
    | _ =>
      if mask.testBit i then
        effLoop mask rest (i + 1) (ainsert updates pt.fid true) (eff ||| (1 <<< i))
      else effLoop mask rest (i + 1) updates eff

/-- `indexer.computeEffectiveMask`: walk the selected fields in order keeping
a `decided` map (`updates`) from field id to presence; each field is first
recorded absent, a field whose parent is recorded absent is skipped (its raw
bit is dropped), and otherwise the raw bit is copied into the effective mask
and recorded. -/
def computeEffectiveMask (mask : Nat) (pts : List FieldFrequency) : Nat :=
  effLoop mask pts 0 [] 0

/-! ## Presence rewriter (`indexer.go`: `newPresenceRewriter`,
`presenceRewriter.Optimize`) -/

/-- The loop of `newPresenceRewriter`: record each field absent, then present
when its bit of `mask` is set. -/
def updatesLoop (mask : Nat) : List FieldFrequency → Nat → List (Nat × Bool) → List (Nat × Bool)
  | [], _, u => u
  | pt :: rest, i, u =>
    let u := ainsert u pt.fid false
    let u := if mask.testBit i then ainsert u pt.fid true else u
    updatesLoop mask rest (i + 1) u

/-- `newPresenceRewriter(mask, pts)`: the update map sending each selected
field's node id to the boolean carried by its bit of `mask`. -/
def newPresenceRewriterUpdates (mask : Nat) (pts : List FieldFrequency) : List (Nat × Bool) :=
  updatesLoop mask pts 0 []

/-- `presenceRewriter.Optimize`: replace every node whose id is a key of
`updates` by a boolean literal carrying the mapped value; `SetKindCase`
keeps the replaced node's id.  The Go pass first collects all matches on the
original tree and then splices each in place; since a replacement is a leaf,
the net tree is this top-down replacement that stops descending at a match
(a match nested inside another match is detached by the outer splice). -/
def presenceRewrite (updates : List (Nat × Bool)) : Expr → Expr
  | .ident i n =>
    match alookup updates i with
    | some b => .lit i (.vbool b)
    | none => .ident i n
  | .lit i v =>
    match alookup updates i with
    | some b => .lit i (.vbool b)
    | none => .lit i v
  | .select i op f t =>
    match alookup updates i with
    | some b => .lit i (.vbool b)
    | none => .select i (presenceRewrite updates op) f t
  | .unop i f a =>
    match alookup updates i with
    | some b => .lit i (.vbool b)
    | none => .unop i f (presenceRewrite updates a)
  | .binop i f a b =>
    match alookup updates i with
    | some bv => .lit i (.vbool bv)
    | none => .binop i f (presenceRewrite updates a) (presenceRewrite updates b)
  | .cond i c t e =>
    match alookup updates i with
    | some b => .lit i (.vbool b)
    | none =>
      .cond i (presenceRewrite updates c) (presenceRewrite updates t) (presenceRewrite updates e)

/-! ## Constant folder

Modelled from the spec: `cel.NewConstantFoldingOptimizer()` is an external
collaborator; per the spec it "is responsible for propagating the literals
through `&&`, `||`, `?:`, `!`, and short-circuiting branches".  The model
performs exactly the literal-boolean propagation steps that are semantics
preserving for the reference evaluator above: a `false` literal annihilates a
conjunction (CEL `&&` is commutative with error absorption), a `true` literal
annihilates a disjunction, fully-literal conjunctions/disjunctions and literal
negations reduce, and a literal condition selects its branch. -/
/-- The boolean carried by a boolean literal, `none` on any other node. -/
def boolLitOf : Expr → Option Bool
  | .lit _ (.vbool b) => some b
  | _ => none

def foldNot (i : Nat) (a2 : Expr) : Expr :=
  match boolLitOf a2 with
  | some b => .lit i (.vbool (!b))
  | none => .unop i "!_" a2

def foldAnd (i : Nat) (a2 b2 : Expr) : Expr :=
  if boolLitOf a2 = some false ∨ boolLitOf b2 = some false then .lit i (.vbool false)
  else if boolLitOf a2 = some true ∧ boolLitOf b2 = some true then .lit i (.vbool true)
  else .binop i "_&&_" a2 b2

def foldOr (i : Nat) (a2 b2 : Expr) : Expr :=
  if boolLitOf a2 = some true ∨ boolLitOf b2 = some true then .lit i (.vbool true)
  else if boolLitOf a2 = some false ∧ boolLitOf b2 = some false then .lit i (.vbool false)
  else .binop i "_||_" a2 b2

def foldCond (i : Nat) (c2 t2 e2 : Expr) : Expr :=
  match boolLitOf c2 with
  | some true => t2
  | some false => e2
  | none => .cond i c2 t2 e2

def foldExpr : Expr → Expr
  | .ident i n => .ident i n
  | .lit i v => .lit i v
  | .select i op f t => .select i (foldExpr op) f t
  | .unop i f a =>
    if f = "!_" then foldNot i (foldExpr a) else .unop i f (foldExpr a)
  | .binop i f a b =>
    if f = "_&&_" then foldAnd i (foldExpr a) (foldExpr b)
    else if f = "_||_" then foldOr i (foldExpr a) (foldExpr b)
    else .binop i f (foldExpr a) (foldExpr b)
  | .cond i c t e => foldCond i (foldExpr c) (foldExpr t) (foldExpr e)

/-- `cel.NewStaticOptimizer(pr, folder).Optimize(env, a)`.  Modelled from the
spec: the pipeline applies the rewriter pass and then the folder to a copy of
the AST; neither modelled pass can fail, so the issue channel is empty. -/
def staticOptimize (updates : List (Nat × Bool)) (a : Expr) : Expr :=
  foldExpr (presenceRewrite updates a)

/-! ## Indexer driver (`indexer.go`: `GenerateIndex`) -/

/-- `IndexedAST`: the selected fields, the mask-to-slot map, and the
specialized ASTs. -/
structure IndexedAST where
  fields : List FieldFrequency
  maskToASTSlot : List (Nat × Nat)
  asts : List Expr
deriving DecidableEq

/-- One iteration of the `GenerateIndex` specialization loop at raw mask `i`:
skip when the effective mask is already a key of the slot map, otherwise
optimize under the presence rewriter for this raw mask and record the raw
mask against the fresh slot. -/
def genStep (a : Expr) (pf : List FieldFrequency)
    (st : List (Nat × Nat) × List Expr) (i : Nat) : List (Nat × Nat) × List Expr :=
  let effectiveMask := computeEffectiveMask i pf
  match alookup st.1 effectiveMask with
  | some _ => st
  | none =>
    let indexed := staticOptimize (newPresenceRewriterUpdates i pf) a
    (ainsert st.1 i st.2.length, st.2 ++ [indexed])

/-- The `GenerateIndex` loop from mask `i` for `cnt` more masks. -/
def genLoop (a : Expr) (pf : List FieldFrequency) :
    Nat → Nat → List (Nat × Nat) × List Expr → List (Nat × Nat) × List Expr
  | _, 0, st => st
  | i, cnt + 1, st => genLoop a pf (i + 1) cnt (genStep a pf st i)

/-- The specialization loop of `GenerateIndex` over all raw masks in
increasing order. -/
def generateIndexLoop (a : Expr) (pf : List FieldFrequency) : List (Nat × Nat) × List Expr :=
  genLoop a pf 0 (2 ^ pf.length) ([], [])

/-- `indexer.GenerateIndex(env, a)`.  The environment argument is only passed
through to the external optimizer pipeline (for re-checking), which the model
treats as semantics-free; the constant-folder construction cannot fail. -/
def generateIndex (a : Expr) : IndexedAST :=
  let presenceFields := findFrequentPresenceFields a
  if presenceFields.length = 0 then
    { fields := [], maskToASTSlot := [(0, 0)], asts := [a] }
  else
    let st := generateIndexLoop a presenceFields
    { fields := presenceFields, maskToASTSlot := st.1, asts := st.2 }

/-! ## Indexed program (`program.go`: `NewIndexedProgram`,
`IndexedProgram.Eval`) -/

/-- `fieldFrequency.FieldPath()` as used by `program.go`.  Modelled from the
spec: the exported `FieldPath` used by `NewIndexedProgram` is not part of the
sources (the bundled trie snapshot carries an older unexported `fieldPath`
returning the unsplit dotted string); §4.6 prescribes the dotted path
`v.s1.s2.…` segment by segment, i.e. the record's segment list. -/
def FieldPath (f : FieldFrequency) : List String := f.path

/-- A compiled probe: the root variable plus the remaining presence-only
qualifiers.  `none` stands for the nil `interpreter.Attribute` left in
`maskTests` when the probe is skipped. -/
def Probe : Type := String × List String

/-- `IndexedProgram`: probe list (one per field, possibly nil) and one
compiled program per specialized AST (compilation `env.Program(a)` is
modelled by keeping the AST for the reference evaluator). -/
structure IndexedProgram where
  maskToASTSlot : List (Nat × Nat)
  maskTests : List (Option Probe)
  programs : List Expr

/-- `NewIndexedProgram(env, idxAST)`: for each selected field, skip the probe
if the path is shorter than two segments or the root variable is unknown to
the type environment; otherwise build the absolute attribute for the root
followed by one presence-only qualifier per remaining segment.  Qualifier
construction over map/dyn types cannot fail, so the model is total; the
environment is the set of declared variable names (the declared types only
steer qualifier construction, not the probe's runtime answer). -/
def newIndexedProgram (env : List String) (idx : IndexedAST) : IndexedProgram :=
  { maskToASTSlot := idx.maskToASTSlot
    maskTests := idx.fields.map (fun f =>
      let path := FieldPath f
      if path.length < 2 then none
      else
        match path with
        | [] => none
        | v :: rest => if v ∈ env then some (v, rest) else none)
    programs := idx.asts }

/-- Presence-only qualification chain.  Modelled from the spec: each
qualifier tests field presence in non-fatal mode — a missing field yields the
absent sentinel (`OptionalNone`, short-circuiting the chain), while
qualifying into a non-map value is a hard resolution error. -/
def qualifyPresence : Val → List String → Option Bool
  | _, [] => some true
  | .vmap m, s :: rest =>
    match alookup m s with
    | none => some false
    | some v => qualifyPresence v rest
  | _, _ :: _ => none

/-- Resolve one probe against the activation: the absolute attribute errors
when the root name is unbound; otherwise the qualifier chain answers
presence.  `none` is a hard resolution error. -/
def resolveProbe (act : Activation) (p : Probe) : Option Bool :=
  match alookup act p.1 with
  | none => none
  | some v => qualifyPresence v p.2

/-- Outcome of running an indexed program: a Go panic (nil-probe dereference
or slot index out of range), an error return, or a value. -/
inductive PRes where
  | panic
  | err
  | ok (v : Val)
deriving DecidableEq

/-- Outcome of the mask-assembly loop of `IndexedProgram.Eval`. -/
inductive MaskRes where
  | panic
  | err
  | ok (mask : Nat)
deriving DecidableEq

/-- The probe loop of `IndexedProgram.Eval`: probes run in order; a nil probe
is dereferenced (`maskTest.Resolve` on a nil interface — a Go panic); a hard
resolution error aborts with that error; otherwise the bit is set exactly
when the resolved value is not the absent sentinel. -/
def assembleMask (act : Activation) : List (Option Probe) → Nat → MaskRes
  | [], _ => .ok 0
  | none :: _, _ => .panic
  | some p :: rest, bit =>
    match resolveProbe act p with
    | none => .err
    | some b =>
      match assembleMask act rest (bit + 1) with
      | .ok m => .ok (if b then m ||| (1 <<< bit) else m)
      | r => r

/-- `IndexedProgram.Eval(vars)`: assemble the mask, read the slot with the Go
zero default, and delegate to the slot's program, passing its result or error
through unchanged. -/
def IndexedProgram.Eval (prg : IndexedProgram) (act : Activation) : PRes :=
  match assembleMask act prg.maskTests 0 with
  | .panic => .panic
  | .err => .err
  | .ok mask =>
    let idx := alookupD prg.maskToASTSlot mask 0
    match prg.programs.get? idx with
    | none => .panic
    | some p =>
      match evalExpr act p with
      | none => .err
      | some v => .ok v

/-- The reference (non-indexed) program compiled from the same AST:
`env.Program(a).Eval(vars)`. -/
def referenceEval (a : Expr) (act : Activation) : PRes :=
  match evalExpr act a with
  | none => .err
  | some v => .ok v

/-! ## Auxiliary notions used by the statements and proofs -/

/-- Structural induction principle for the trie (its children sit inside a
nested list, so the automatically generated recursor is awkward). -/
def FieldTrie.indOn {motive : FieldTrie → Prop} :
    (t : FieldTrie) →
    (h : ∀ seg fr tid ch, (∀ p ∈ ch, motive p.2) → motive (.mk seg fr tid ch)) →
    motive t
  | .mk seg fr tid ch, h =>
    h seg fr tid ch (fun p hp => p.2.indOn h)
termination_by t => sizeOf t
decreasing_by
  have h1 : sizeOf p < sizeOf ch := List.sizeOf_lt_of_mem hp
  cases p with
  | mk s c => simp at h1 ⊢; omega

/-- Total frequency of a children list. -/
def sumFreq (ch : List (String × FieldTrie)) : Nat :=
  (ch.map (fun p => p.2.frequency)).sum

/-- Accounting constraint at one trie node: its frequency covers all the
additions that passed into its children, plus one terminating addition when
a presence-test id is set here. -/
def NodeOK (t : FieldTrie) : Prop :=
  (if t.tid ≠ 0 then 1 else 0) + sumFreq t.children ≤ t.frequency

/-- All strict descendants of a node satisfy `NodeOK` (the root itself keeps
frequency `0` and carries no constraint). -/
def FieldTrie.InvAll (t : FieldTrie) : Prop :=
  ∀ p, ∀ hp : p ∈ t.children, NodeOK p.2 ∧ p.2.InvAll
termination_by sizeOf t
decreasing_by
  cases t with
  | mk seg fr tid ch =>
    simp only [FieldTrie.children] at hp
    have h1 : sizeOf p < sizeOf ch := List.sizeOf_lt_of_mem hp
    cases p with
    | mk s c => simp at h1 ⊢; omega

/-- Children lists never repeat a segment key (maps in Go); maintained by
`ainsert`. -/
def FieldTrie.NodupKeysT (t : FieldTrie) : Prop :=
  (t.children.map Prod.fst).Nodup ∧ ∀ p, ∀ hp : p ∈ t.children, p.2.NodupKeysT
termination_by sizeOf t
decreasing_by
  cases t with
  | mk seg fr tid ch =>
    simp only [FieldTrie.children] at hp
    have h1 : sizeOf p < sizeOf ch := List.sizeOf_lt_of_mem hp
    cases p with
    | mk s c => simp at h1 ⊢; omega

/-- The child `addSegs` descends into for segment `s`: the existing one, or a
fresh node. -/
def probedChild (t : FieldTrie) (s : String) : FieldTrie :=
  match alookup t.children s with
  | some c => c
  | none => .mk s 0 0 []

/-- Walk the trie down a segment path. -/
def FieldTrie.descend : FieldTrie → List String → Option FieldTrie
  | t, [] => some t
  | t, s :: rest =>
    match alookup t.children s with
    | none => none
    | some c => c.descend rest

/-- A mask is closed for a field list when every set bit respects the
parent-presence implication: the field's id differs from its `parentID`, and
any earlier field whose id equals that `parentID` also has its bit set.
Runtime masks probed from consistent input data are closed, and
`computeEffectiveMask` produces closed masks. -/
def ClosedMask (m : Nat) (pts : List FieldFrequency) : Prop :=
  ∀ (idx : Nat) (hidx : idx < pts.length), m.testBit idx = true →
    pts[idx].fid ≠ pts[idx].parentID ∧
    ∀ (j : Nat) (hj : j < pts.length), j < idx → pts[j].fid = pts[idx].parentID →
      m.testBit j = true

/-- Bitwise characterization of a mask-planner result `result` for raw mask
`m` over `pts`: at each position, the bit is the raw bit, except that it is
conjoined with the result bit of the deciding earlier parent when one exists,
and forced clear when the field is its own parent. -/
def EffChar (m : Nat) (pts : List FieldFrequency) (result : Nat) : Prop :=
  ∀ (idx : Nat) (hidx : idx < pts.length),
    ((pts[idx].parentID = 0 ∨
        ∀ (j : Nat) (hj : j < pts.length), j ≤ idx → pts[j].fid ≠ pts[idx].parentID) →
      result.testBit idx = m.testBit idx) ∧
    (∀ (j : Nat) (hj : j < pts.length), j < idx → pts[j].fid = pts[idx].parentID →
      result.testBit idx = (m.testBit idx && result.testBit j)) ∧
    (pts[idx].fid = pts[idx].parentID → result.testBit idx = false)

/-- All subterms of an expression, itself included. -/
def subterms : Expr → List Expr
  | .ident i n => [.ident i n]
  | .lit i v => [.lit i v]
  | .select i op f t => .select i op f t :: subterms op
  | .unop i f a => .unop i f a :: subterms a
  | .binop i f a b => .binop i f a b :: (subterms a ++ subterms b)
  | .cond i c t e => .cond i c t e :: (subterms c ++ subterms t ++ subterms e)

/-- The node ids of all subterms; a well-formed AST has these pairwise
distinct (node-id uniqueness is a global invariant of parsed CEL ASTs). -/
def exprIds (e : Expr) : List Nat := (subterms e).map Expr.eidOf

/-- The fourth `TestGenerateIndex` expression,
`has(a.b) && has(a.b.c) ? a.b.c : !has(b.c) ? b.c : c.d`,
with preorder node ids. -/
def astS3 : Expr :=
  .cond 18
    (.binop 6 "_&&_"
      (.select 2 (.ident 1 "a") "b" true)
      (.select 5 (.select 4 (.ident 3 "a") "b" false) "c" true))
    (.select 9 (.select 8 (.ident 7 "a") "b" false) "c" false)
    (.cond 17
      (.unop 12 "!_" (.select 11 (.ident 10 "b") "c" true))
      (.select 14 (.ident 13 "b") "c" false)
      (.select 16 (.ident 15 "c") "d" false))

/-- The first `TestGenerateIndex` expression `has(a.b) ? a : b`. -/
def astS1 : Expr :=
  .cond 5 (.select 2 (.ident 1 "a") "b" true) (.ident 3 "a") (.ident 4 "b")

/-- `has(z.b) ? 1 : 2` where `z` is left undeclared in the type environment:
the presence test's root is unknown, so its probe is skipped. -/
def astZ : Expr :=
  .cond 5 (.select 2 (.ident 1 "z") "b" true) (.lit 3 (.vint 1)) (.lit 4 (.vint 2))

/-! # Lemmas: association lists -/

theorem alookup_ainsert_self {α β : Type} [DecidableEq α] (m : List (α × β)) (k : α) (v : β) :
    alookup (ainsert m k v) k = some v := by
  induction m with
  | nil => simp [ainsert, alookup]
  | cons p rest ih =>
    by_cases h : k = p.1
    · simp [ainsert, alookup, h]
    · simp only [ainsert]
      rw [if_neg h]
      simp only [alookup]
      rw [if_neg h]
      exact ih

theorem alookup_ainsert_ne {α β : Type} [DecidableEq α] (m : List (α × β)) (k k2 : α) (v : β)
    (h : k2 ≠ k) : alookup (ainsert m k v) k2 = alookup m k2 := by
  induction m with
  | nil => simp [ainsert, alookup, h]
  | cons p rest ih =>
    by_cases hk : k = p.1
    · subst hk
      simp [ainsert, alookup, h]
    · simp only [ainsert]
      rw [if_neg hk]
      simp only [alookup]
      by_cases hk2 : k2 = p.1
      · simp [hk2]
      · rw [if_neg hk2, if_neg hk2]
        exact ih

theorem mem_ainsert {α β : Type} [DecidableEq α] {m : List (α × β)} {k : α} {v : β} {p : α × β}
    (h : p ∈ ainsert m k v) : p = (k, v) ∨ p ∈ m := by
  induction m with
  | nil => simp [ainsert] at h; simp [h]
  | cons q rest ih =>
    simp only [ainsert] at h
    by_cases hk : k = q.1
    · rw [if_pos hk] at h
      rcases List.mem_cons.mp h with h1 | h1
      · exact Or.inl h1
      · exact Or.inr (List.mem_cons_of_mem _ h1)
    · rw [if_neg hk] at h
      rcases List.mem_cons.mp h with h1 | h1
      · exact Or.inr (h1 ▸ List.mem_cons_self _ _)
      · rcases ih h1 with h2 | h2
        · exact Or.inl h2
        · exact Or.inr (List.mem_cons_of_mem _ h2)

theorem alookup_mem {α β : Type} [DecidableEq α] {m : List (α × β)} {k : α} {v : β}
    (h : alookup m k = some v) : (k, v) ∈ m := by
  induction m with
  | nil => simp [alookup] at h
  | cons p rest ih =>
    simp only [alookup] at h
    by_cases hk : k = p.1
    · rw [if_pos hk] at h
      cases h
      cases p
      cases hk
      exact List.mem_cons_self _ _
    · rw [if_neg hk] at h
      exact List.mem_cons_of_mem _ (ih h)

theorem alookup_eq_none_iff {α β : Type} [DecidableEq α] (m : List (α × β)) (k : α) :
    alookup m k = none ↔ k ∉ akeys m := by
  induction m with
  | nil => simp [alookup, akeys]
  | cons p rest ih =>
    simp only [alookup, akeys, List.map_cons, List.mem_cons]
    by_cases hk : k = p.1
    · simp [hk]
    · rw [if_neg hk]
      simp [hk, ih, akeys]

theorem akeys_ainsert {α β : Type} [DecidableEq α] (m : List (α × β)) (k : α) (v : β) :
    akeys (ainsert m k v) = if k ∈ akeys m then akeys m else akeys m ++ [k] := by
  induction m with
  | nil => simp [ainsert, akeys]
  | cons p rest ih =>
    simp only [ainsert, akeys, List.map_cons]
    by_cases hk : k = p.1
    · rw [if_pos hk]
      simp [akeys, hk]
    · rw [if_neg hk]
      simp only [akeys] at ih
      simp [akeys, hk, ih]
      by_cases hm : k ∈ rest.map Prod.fst <;> simp [hm, hk]

theorem nodup_akeys_ainsert {α β : Type} [DecidableEq α] {m : List (α × β)} (k : α) (v : β)
    (h : (akeys m).Nodup) : (akeys (ainsert m k v)).Nodup := by
  rw [akeys_ainsert]
  by_cases hm : k ∈ akeys m
  · simpa [hm]
  · simpa [hm, List.nodup_append] using h

/-! # Lemmas: the field trie -/

@[simp] theorem fieldSegment_mk (s : String) (fr tid : Nat) (ch : List (String × FieldTrie)) :
    (FieldTrie.mk s fr tid ch).fieldSegment = s := rfl

@[simp] theorem frequency_mk (s : String) (fr tid : Nat) (ch : List (String × FieldTrie)) :
    (FieldTrie.mk s fr tid ch).frequency = fr := rfl

@[simp] theorem tid_mk (s : String) (fr tid : Nat) (ch : List (String × FieldTrie)) :
    (FieldTrie.mk s fr tid ch).tid = tid := rfl

@[simp] theorem children_mk (s : String) (fr tid : Nat) (ch : List (String × FieldTrie)) :
    (FieldTrie.mk s fr tid ch).children = ch := rfl

theorem addSegs_nil (t : FieldTrie) (pid : Nat) :
    t.addSegs [] pid = .mk t.fieldSegment t.frequency pid t.children := by
  cases t; rfl

theorem addSegs_frequency (t : FieldTrie) (segs : List String) (pid : Nat) :
    (t.addSegs segs pid).frequency = t.frequency := by
  cases t with
  | mk seg fr tid ch => cases segs <;> simp [FieldTrie.addSegs]

theorem addSegs_fieldSegment (t : FieldTrie) (segs : List String) (pid : Nat) :
    (t.addSegs segs pid).fieldSegment = t.fieldSegment := by
  cases t with
  | mk seg fr tid ch => cases segs <;> simp [FieldTrie.addSegs]

theorem addSegs_tid (t : FieldTrie) (segs : List String) (pid : Nat) :
    (t.addSegs segs pid).tid = if segs = [] then pid else t.tid := by
  cases t with
  | mk seg fr tid ch => cases segs <;> simp [FieldTrie.addSegs]

theorem addSegs_cons_children (t : FieldTrie) (s : String) (rest : List String) (pid : Nat) :
    (t.addSegs (s :: rest) pid).children =
      ainsert t.children s
        ((FieldTrie.mk (probedChild t s).fieldSegment ((probedChild t s).frequency + 1)
          (probedChild t s).tid (probedChild t s).children).addSegs rest pid) := by
  cases t with
  | mk seg fr tid ch =>
    simp only [FieldTrie.addSegs, probedChild, children_mk]

theorem sumFreq_ainsert_none (ch : List (String × FieldTrie)) (s : String) (c : FieldTrie)
    (h : alookup ch s = none) : sumFreq (ainsert ch s c) = sumFreq ch + c.frequency := by
  induction ch with
  | nil => simp [ainsert, sumFreq]
  | cons p rest ih =>
    simp only [alookup] at h
    by_cases hk : s = p.1
    · rw [if_pos hk] at h; cases h
    · rw [if_neg hk] at h
      simp only [ainsert]
      rw [if_neg hk]
      simp only [sumFreq, List.map_cons, List.sum_cons] at *
      rw [ih h]
      omega

theorem sumFreq_ainsert_found (ch : List (String × FieldTrie)) (s : String) (c c2 : FieldTrie)
    (h : alookup ch s = some c) :
    sumFreq (ainsert ch s c2) + c.frequency = sumFreq ch + c2.frequency := by
  induction ch with
  | nil => simp [alookup] at h
  | cons p rest ih =>
    simp only [alookup] at h
    by_cases hk : s = p.1
    · rw [if_pos hk] at h
      cases h
      simp only [ainsert]
      rw [if_pos hk]
      simp only [sumFreq, List.map_cons, List.sum_cons]
      omega
    · rw [if_neg hk] at h
      simp only [ainsert]
      rw [if_neg hk]
      simp only [sumFreq, List.map_cons, List.sum_cons] at *
      have := ih h
      omega

theorem InvAll_iff (t : FieldTrie) :
    t.InvAll ↔ ∀ p ∈ t.children, NodeOK p.2 ∧ p.2.InvAll := by
  rw [FieldTrie.InvAll]

theorem NodupKeysT_iff (t : FieldTrie) :
    t.NodupKeysT ↔ (t.children.map Prod.fst).Nodup ∧ ∀ p ∈ t.children, p.2.NodupKeysT := by
  rw [FieldTrie.NodupKeysT]

theorem InvAll_empty (s : String) : (FieldTrie.mk s 0 0 []).InvAll := by
  rw [InvAll_iff]; simp

theorem NodeOK_empty (s : String) : NodeOK (FieldTrie.mk s 0 0 []) := by
  simp [NodeOK, sumFreq]

theorem addSegs_nil_children (t : FieldTrie) (pid : Nat) :
    (t.addSegs [] pid).children = t.children := by
  rw [addSegs_nil]; rfl

theorem sumFreq_addSegs_children_cons (t : FieldTrie) (s : String) (rest : List String)
    (pid : Nat) : sumFreq (t.addSegs (s :: rest) pid).children = sumFreq t.children + 1 := by
  rw [addSegs_cons_children]
  cases hc : alookup t.children s with
  | none =>
    rw [sumFreq_ainsert_none _ _ _ hc, addSegs_frequency]
    simp [probedChild, hc]
  | some c =>
    simp only [probedChild, hc]
    have h2 := sumFreq_ainsert_found t.children s c
      ((FieldTrie.mk c.fieldSegment (c.frequency + 1) c.tid c.children).addSegs rest pid) hc
    rw [addSegs_frequency] at h2
    simp only [frequency_mk] at h2
    omega

theorem NodeOK_bumped_addSegs (c : FieldTrie) (rest : List String) (pid : Nat)
    (hok : NodeOK c) :
    NodeOK ((FieldTrie.mk c.fieldSegment (c.frequency + 1) c.tid c.children).addSegs rest pid) := by
  have hsum : sumFreq c.children ≤ c.frequency := by
    simp only [NodeOK] at hok; omega
  cases rest with
  | nil =>
    simp only [NodeOK, addSegs_tid, addSegs_frequency, addSegs_nil_children,
      frequency_mk, children_mk]
    by_cases hz : pid = 0 <;> simp [hz] <;> omega
  | cons s2 rest2 =>
    simp only [NodeOK, addSegs_tid, addSegs_frequency, sumFreq_addSegs_children_cons,
      frequency_mk, children_mk, tid_mk]
    have hne : (s2 :: rest2 : List String) ≠ [] := by simp
    rw [if_neg hne]
    simp only [NodeOK] at hok
    by_cases hz : c.tid = 0 <;> simp [hz] at hok ⊢ <;> omega

theorem probedChild_ok (t : FieldTrie) (s : String) (h : t.InvAll) :
    NodeOK (probedChild t s) ∧ (probedChild t s).InvAll := by
  cases hc : alookup t.children s with
  | none => simp only [probedChild, hc]; exact ⟨NodeOK_empty s, InvAll_empty s⟩
  | some c =>
    simp only [probedChild, hc]
    exact (InvAll_iff t).mp h (s, c) (alookup_mem hc)

theorem addSegs_InvAll : ∀ (segs : List String) (t : FieldTrie) (pid : Nat),
    t.InvAll → (t.addSegs segs pid).InvAll := by
  intro segs
  induction segs with
  | nil =>
    intro t pid h
    rw [addSegs_nil, InvAll_iff]
    simpa only [children_mk] using (InvAll_iff t).mp h
  | cons s rest ih =>
    intro t pid h
    rw [InvAll_iff]
    intro p hp
    rw [addSegs_cons_children] at hp
    rcases mem_ainsert hp with h1 | h1
    · -- the child that was descended into
      obtain ⟨hok, hinv⟩ := probedChild_ok t s h
      have hinvc : (FieldTrie.mk (probedChild t s).fieldSegment ((probedChild t s).frequency + 1)
          (probedChild t s).tid (probedChild t s).children).InvAll := by
        rw [InvAll_iff]
        simpa only [children_mk] using (InvAll_iff _).mp hinv
      have hIH := ih _ pid hinvc
      subst h1
      exact ⟨NodeOK_bumped_addSegs (probedChild t s) rest pid hok, hIH⟩
    · exact (InvAll_iff t).mp h p h1

theorem addSegs_NodupKeysT : ∀ (segs : List String) (t : FieldTrie) (pid : Nat),
    t.NodupKeysT → (t.addSegs segs pid).NodupKeysT := by
  intro segs
  induction segs with
  | nil =>
    intro t pid h
    rw [addSegs_nil, NodupKeysT_iff]
    simpa only [children_mk] using (NodupKeysT_iff t).mp h
  | cons s rest ih =>
    intro t pid h
    obtain ⟨hnd, hrec⟩ := (NodupKeysT_iff t).mp h
    rw [NodupKeysT_iff, addSegs_cons_children]
    constructor
    · exact nodup_akeys_ainsert s _ hnd
    · intro p hp
      rcases mem_ainsert hp with h1 | h1
      · have hpc : (probedChild t s).NodupKeysT := by
          cases hc : alookup t.children s with
          | none =>
            simp only [probedChild, hc]
            rw [NodupKeysT_iff]
            simp
          | some c =>
            simp only [probedChild, hc]
            exact hrec (s, c) (alookup_mem hc)
        have : (FieldTrie.mk (probedChild t s).fieldSegment ((probedChild t s).frequency + 1)
            (probedChild t s).tid (probedChild t s).children).NodupKeysT := by
          rw [NodupKeysT_iff]
          simpa only [children_mk] using (NodupKeysT_iff _).mp hpc
        subst h1
        exact ih _ pid this
      · exact hrec p h1

theorem buildTrie_InvAll (adds : List (List String × Nat)) : (buildTrie adds).InvAll := by
  have h : ∀ (l : List (List String × Nat)) (t : FieldTrie), t.InvAll →
      (l.foldl (fun t a => t.addSegs a.1 a.2) t).InvAll := by
    intro l
    induction l with
    | nil => intro t ht; exact ht
    | cons a rest ih => intro t ht; exact ih _ (addSegs_InvAll a.1 t a.2 ht)
  exact h adds newFieldTrie (InvAll_empty "")

theorem buildTrie_NodupKeysT (adds : List (List String × Nat)) : (buildTrie adds).NodupKeysT := by
  have h : ∀ (l : List (List String × Nat)) (t : FieldTrie), t.NodupKeysT →
      (l.foldl (fun t a => t.addSegs a.1 a.2) t).NodupKeysT := by
    intro l
    induction l with
    | nil => intro t ht; exact ht
    | cons a rest ih => intro t ht; exact ih _ (addSegs_NodupKeysT a.1 t a.2 ht)
  refine h adds newFieldTrie ?_
  rw [NodupKeysT_iff]
  simp [newFieldTrie]

theorem descend_append (t : FieldTrie) (p q : List String) :
    t.descend (p ++ q) = (t.descend p).bind (fun n => n.descend q) := by
  induction p generalizing t with
  | nil => simp [FieldTrie.descend]
  | cons s rest ih =>
    simp only [List.cons_append, FieldTrie.descend]
    cases alookup t.children s with
    | none => simp
    | some c => simpa using ih c

theorem child_freq_le (n : FieldTrie) (s : String) (c : FieldTrie) (hok : NodeOK n)
    (hc : alookup n.children s = some c) : c.frequency ≤ n.frequency := by
  have hmem : (s, c) ∈ n.children := alookup_mem hc
  have h1 : c.frequency ≤ sumFreq n.children := by
    have : c.frequency ∈ n.children.map (fun p => p.2.frequency) :=
      List.mem_map.mpr ⟨(s, c), hmem, rfl⟩
    exact List.single_le_sum (fun x _ => Nat.zero_le x) _ this
  simp only [NodeOK] at hok
  omega

theorem descend_strict (rest : List String) (t : FieldTrie) (s : String) (m : FieldTrie)
    (hinv : t.InvAll) (hd : t.descend (s :: rest) = some m) :
    NodeOK m ∧ m.InvAll := by
  induction rest generalizing t s m with
  | nil =>
    simp only [FieldTrie.descend] at hd
    cases hc : alookup t.children s with
    | none => rw [hc] at hd; cases hd
    | some c =>
      rw [hc] at hd
      simp only [FieldTrie.descend] at hd
      injection hd with h
      subst h
      exact (InvAll_iff t).mp hinv (s, c) (alookup_mem hc)
  | cons s2 rest2 ih =>
    simp only [FieldTrie.descend] at hd
    cases hc : alookup t.children s with
    | none => rw [hc] at hd; cases hd
    | some c =>
      rw [hc] at hd
      have hcv := (InvAll_iff t).mp hinv (s, c) (alookup_mem hc)
      exact ih c s2 m hcv.2 hd

theorem descend_freq_le (q : List String) (n m : FieldTrie)
    (hok : NodeOK n) (hinv : n.InvAll) (hd : n.descend q = some m) :
    m.frequency ≤ n.frequency := by
  induction q generalizing n with
  | nil => simp [FieldTrie.descend] at hd; cases hd; exact le_refl _
  | cons s rest ih =>
    simp only [FieldTrie.descend] at hd
    cases hc : alookup n.children s with
    | none => rw [hc] at hd; cases hd
    | some c =>
      rw [hc] at hd
      have hcv := (InvAll_iff n).mp hinv (s, c) (alookup_mem hc)
      exact le_trans (ih c hcv.1 hcv.2 hd) (child_freq_le n s c hok hc)

theorem addSegs_descend_self : ∀ (p : List String) (t : FieldTrie) (pid : Nat),
    ∃ n, (t.addSegs p pid).descend p = some n ∧ n.tid = pid := by
  intro p
  induction p with
  | nil =>
    intro t pid
    exact ⟨t.addSegs [] pid, rfl, by rw [addSegs_tid]; simp⟩
  | cons s rest ih =>
    intro t pid
    obtain ⟨n, hn, htid⟩ := ih (FieldTrie.mk (probedChild t s).fieldSegment
      ((probedChild t s).frequency + 1) (probedChild t s).tid (probedChild t s).children) pid
    refine ⟨n, ?_, htid⟩
    simp only [FieldTrie.descend, addSegs_cons_children, alookup_ainsert_self]
    exact hn

/-- Descending the rewritten trie: any node with a nonzero id either sits at
the freshly added path and carries the new id, or already existed with the
same id. -/
theorem descend_addSegs_tid : ∀ (q p : List String) (t : FieldTrie) (pid : Nat) (n : FieldTrie),
    (t.addSegs q pid).descend p = some n → n.tid ≠ 0 →
    (p = q ∧ n.tid = pid) ∨ (∃ m, t.descend p = some m ∧ m.tid = n.tid) := by
  intro q
  induction q with
  | nil =>
    intro p t pid n hd hnz
    cases p with
    | nil =>
      simp only [FieldTrie.descend] at hd
      cases hd
      rw [addSegs_tid]
      simp
    | cons s prest =>
      right
      simp only [FieldTrie.descend, addSegs_nil_children] at hd
      refine ⟨n, ?_, rfl⟩
      simp only [FieldTrie.descend]
      exact hd
  | cons s qrest ih =>
    intro p t pid n hd hnz
    cases p with
    | nil =>
      right
      simp only [FieldTrie.descend] at hd
      cases hd
      refine ⟨t, rfl, ?_⟩
      rw [addSegs_tid]
      simp
    | cons s2 prest =>
      simp only [FieldTrie.descend, addSegs_cons_children] at hd
      by_cases hs : s2 = s
      · subst hs
        rw [alookup_ainsert_self] at hd
        rcases ih prest (FieldTrie.mk (probedChild t s2).fieldSegment
            ((probedChild t s2).frequency + 1) (probedChild t s2).tid
            (probedChild t s2).children) pid n hd hnz with h1 | h1
        · exact Or.inl ⟨by rw [h1.1], h1.2⟩
        · obtain ⟨m, hm, hmtid⟩ := h1
          cases prest with
          | nil =>
            -- m is the bumped child itself
            simp only [FieldTrie.descend] at hm
            cases hm
            simp only [tid_mk] at hmtid
            cases hc : alookup t.children s2 with
            | none =>
              simp only [probedChild, hc, tid_mk] at hmtid
              rw [← hmtid] at hnz
              cases hnz rfl
            | some c =>
              right
              refine ⟨c, ?_, ?_⟩
              · simp [FieldTrie.descend, hc]
              · simp only [probedChild, hc] at hmtid
                exact hmtid
          | cons s3 prest2 =>
            -- descending below the bumped child reuses its old children
            simp only [FieldTrie.descend, children_mk] at hm
            cases hc : alookup t.children s2 with
            | none =>
              simp only [probedChild, hc, children_mk] at hm
              simp only [alookup] at hm
              cases hm
            | some c =>
              right
              refine ⟨m, ?_, hmtid⟩
              simp only [probedChild, hc] at hm
              simp only [FieldTrie.descend, hc]
              exact hm
      · rw [alookup_ainsert_ne _ _ _ _ hs] at hd
        right
        refine ⟨n, ?_, rfl⟩
        simp only [FieldTrie.descend]
        exact hd

theorem alookup_of_mem_nodup {α β : Type} [DecidableEq α] {m : List (α × β)} {k : α} {v : β}
    (hm : (k, v) ∈ m) (hnd : (m.map Prod.fst).Nodup) : alookup m k = some v := by
  induction m with
  | nil => cases hm
  | cons p rest ih =>
    simp only [List.map_cons, List.nodup_cons] at hnd
    rcases List.mem_cons.mp hm with h1 | h1
    · cases h1
      simp [alookup]
    · have hk : k ≠ p.1 := by
        intro hkk
        exact hnd.1 (List.mem_map.mpr ⟨(k, v), h1, hkk⟩)
      simp only [alookup]
      rw [if_neg hk]
      exact ih h1 hnd.2

theorem collectFields_mk (seg : String) (fr tid : Nat) (ch : List (String × FieldTrie))
    (pfx : List String) :
    (FieldTrie.mk seg fr tid ch).collectFields pfx =
      ch.flatMap (fun sc =>
        (if sc.2.tid ≠ 0
          then [⟨sc.2.tid, tid, pfx ++ [sc.1], sc.2.frequency⟩] else []) ++
          sc.2.collectFields (pfx ++ [sc.1])) := by
  show collectChildren tid pfx ch = _
  induction ch with
  | nil => rfl
  | cons p rest ih =>
    cases p with
    | mk s c =>
      simp only [collectChildren, List.flatMap_cons, ih, List.append_assoc]

theorem mem_collectFields : ∀ (t : FieldTrie), t.NodupKeysT →
    ∀ (pfx : List String) (r : FieldFrequency),
    r ∈ t.collectFields pfx ↔
      ∃ segs, segs ≠ [] ∧ ∃ n pn, t.descend segs = some n ∧
        t.descend segs.dropLast = some pn ∧ n.tid ≠ 0 ∧
        r = ⟨n.tid, pn.tid, pfx ++ segs, n.frequency⟩ := by
  intro t
  induction t using FieldTrie.indOn with
  | _ seg fr tid ch ih =>
    intro hnd pfx r
    obtain ⟨hndk, hndr⟩ := (NodupKeysT_iff _).mp hnd
    simp only [children_mk] at hndk hndr
    rw [collectFields_mk, List.mem_flatMap]
    constructor
    · rintro ⟨sc, hmem, hr⟩
      obtain ⟨s, c⟩ := sc
      have hlk : alookup ch s = some c := alookup_of_mem_nodup hmem hndk
      rcases List.mem_append.mp hr with h1 | h1
      · by_cases hz : c.tid ≠ 0
        · rw [if_pos hz] at h1
          simp only [List.mem_singleton] at h1
          refine ⟨[s], by simp, c, .mk seg fr tid ch, ?_, ?_, hz, by simpa using h1⟩
          · simp [FieldTrie.descend, hlk]
          · simp [FieldTrie.descend]
        · rw [if_neg hz] at h1
          cases h1
      · obtain ⟨segs, hne, n, pn, hd, hdp, hnz, hr2⟩ :=
          (ih (s, c) hmem (hndr (s, c) hmem) (pfx ++ [s]) r).mp h1
        refine ⟨s :: segs, by simp, n, pn, ?_, ?_, hnz, ?_⟩
        · simp [FieldTrie.descend, hlk, hd]
        · cases segs with
          | nil => cases hne rfl
          | cons s2 rest =>
            simp only [List.dropLast_cons₂]
            simp only [FieldTrie.descend, children_mk, hlk]
            simpa using hdp
        · simpa [List.append_assoc] using hr2
    · rintro ⟨segs, hne, n, pn, hd, hdp, hnz, hr⟩
      cases segs with
      | nil => cases hne rfl
      | cons s rest =>
        simp only [FieldTrie.descend, children_mk] at hd
        cases hlk : alookup ch s with
        | none => rw [hlk] at hd; cases hd
        | some c =>
          rw [hlk] at hd
          have hmem : (s, c) ∈ ch := alookup_mem hlk
          refine ⟨(s, c), hmem, ?_⟩
          rw [List.mem_append]
          cases rest with
          | nil =>
            left
            simp only [FieldTrie.descend] at hd
            injection hd with hd
            subst hd
            simp only [List.dropLast_single, FieldTrie.descend] at hdp
            injection hdp with hdp
            rw [if_pos hnz]
            simp only [List.mem_singleton]
            rw [hr, ← hdp]
            rfl
          | cons s2 rest2 =>
            right
            simp only [List.dropLast_cons₂, FieldTrie.descend, children_mk, hlk] at hdp
            refine (ih (s, c) hmem (hndr (s, c) hmem) (pfx ++ [s]) r).mpr ?_
            exact ⟨s2 :: rest2, by simp, n, pn, hd, hdp, hnz, by simpa [List.append_assoc] using hr⟩

theorem sortedPresenceFields_perm (t : FieldTrie) :
    (sortedPresenceFields t).Perm (t.collectFields []) :=
  List.perm_insertionSort ffLE _

theorem mem_sortedPresenceFields (t : FieldTrie) (hnd : t.NodupKeysT) (r : FieldFrequency) :
    r ∈ sortedPresenceFields t ↔
      ∃ segs, segs ≠ [] ∧ ∃ n pn, t.descend segs = some n ∧
        t.descend segs.dropLast = some pn ∧ n.tid ≠ 0 ∧
        r = ⟨n.tid, pn.tid, segs, n.frequency⟩ := by
  rw [(sortedPresenceFields_perm t).mem_iff]
  simpa using mem_collectFields t hnd [] r

theorem sortedPresenceFields_sorted (t : FieldTrie) :
    (sortedPresenceFields t).Sorted ffLE :=
  List.sorted_insertionSort ffLE _

theorem descend_dropLast_isSome (t : FieldTrie) (q : List String) (n : FieldTrie)
    (hq : t.descend q = some n) : ∃ pn, t.descend q.dropLast = some pn := by
  cases hqe : q with
  | nil => exact ⟨n, by simpa [hqe] using hq⟩
  | cons s rest =>
    have hne : q ≠ [] := by rw [hqe]; simp
    have h2 : q.dropLast ++ [q.getLast hne] = q := List.dropLast_append_getLast hne
    rw [← hqe] at *
    rw [← h2, descend_append] at hq
    cases hdl : t.descend q.dropLast with
    | none => rw [hdl] at hq; cases hq
    | some pn => exact ⟨pn, rfl⟩

/-- Provenance of nonzero ids in a built trie: every node carrying a nonzero
id sits at a path that was added with exactly that id. -/
theorem buildTrie_tid_mem : ∀ (adds : List (List String × Nat)) (p : List String)
    (n : FieldTrie), (buildTrie adds).descend p = some n → n.tid ≠ 0 →
    (p, n.tid) ∈ adds := by
  have main : ∀ (adds : List (List String × Nat)) (t : FieldTrie) (p : List String)
      (n : FieldTrie), ((adds.foldl (fun t a => t.addSegs a.1 a.2) t).descend p = some n) →
      n.tid ≠ 0 → (p, n.tid) ∈ adds ∨ (∃ m, t.descend p = some m ∧ m.tid = n.tid) := by
    intro adds
    induction adds with
    | nil => intro t p n hd hnz; exact Or.inr ⟨n, hd, rfl⟩
    | cons a rest ih =>
      intro t p n hd hnz
      simp only [List.foldl_cons] at hd
      rcases ih (t.addSegs a.1 a.2) p n hd hnz with h1 | h1
      · exact Or.inl (List.mem_cons_of_mem _ h1)
      · obtain ⟨m, hm, hmt⟩ := h1
        rcases descend_addSegs_tid a.1 p t a.2 m hm (by rw [hmt]; exact hnz) with h2 | h2
        · left
          rw [← hmt, h2.2, h2.1]
          exact List.mem_cons_self _ _
        · obtain ⟨m2, hm2, hm2t⟩ := h2
          exact Or.inr ⟨m2, hm2, by rw [hm2t, hmt]⟩
  intro adds p n hd hnz
  rcases main adds newFieldTrie p n hd hnz with h | h
  · exact h
  · obtain ⟨m, hm, hmt⟩ := h
    exfalso
    cases p with
    | nil =>
      simp only [FieldTrie.descend] at hm
      injection hm with hm
      rw [← hm] at hmt
      simp [newFieldTrie] at hmt
      exact hnz (by rw [← hmt])
    | cons s rest =>
      simp only [FieldTrie.descend, newFieldTrie, children_mk, alookup] at hm
      cases hm

/-- Two records of a built trie with the same id are the same record, when
the additions carry pairwise distinct nonzero ids. -/
theorem collect_fid_inj (adds : List (List String × Nat))
    (hnd : (adds.map Prod.snd).Nodup)
    (r1 r2 : FieldFrequency)
    (h1 : r1 ∈ (buildTrie adds).collectFields [])
    (h2 : r2 ∈ (buildTrie adds).collectFields [])
    (hfid : r1.fid = r2.fid) : r1 = r2 := by
  obtain ⟨segs1, hne1, n1, pn1, hd1, hdp1, hnz1, hr1⟩ :=
    (mem_collectFields _ (buildTrie_NodupKeysT adds) [] r1).mp h1
  obtain ⟨segs2, hne2, n2, pn2, hd2, hdp2, hnz2, hr2⟩ :=
    (mem_collectFields _ (buildTrie_NodupKeysT adds) [] r2).mp h2
  have hm1 : (segs1, n1.tid) ∈ adds := buildTrie_tid_mem adds segs1 n1 hd1 hnz1
  have hm2 : (segs2, n2.tid) ∈ adds := buildTrie_tid_mem adds segs2 n2 hd2 hnz2
  have htid : n1.tid = n2.tid := by rw [hr1, hr2] at hfid; simpa using hfid
  have hsegs : segs1 = segs2 := by
    rw [htid] at hm1
    have := List.inj_on_of_nodup_map hnd hm1 hm2 rfl
    injection this
  subst hsegs
  rw [hd1] at hd2
  injection hd2 with hd2
  subst hd2
  rw [hdp1] at hdp2
  injection hdp2 with hdp2
  subst hdp2
  rw [hr1, hr2]

theorem freq_le_sumFreq (ch : List (String × FieldTrie)) (s : String) (c : FieldTrie)
    (hc : alookup ch s = some c) : c.frequency ≤ sumFreq ch := by
  have hmem : (s, c) ∈ ch := alookup_mem hc
  have : c.frequency ∈ ch.map (fun p => p.2.frequency) :=
    List.mem_map.mpr ⟨(s, c), hmem, rfl⟩
  exact List.single_le_sum (fun x _ => Nat.zero_le x) _ this

theorem mem_collect_fid_ne_zero (t : FieldTrie) (hnd : t.NodupKeysT) (r : FieldFrequency)
    (hr : r ∈ t.collectFields []) : r.fid ≠ 0 := by
  obtain ⟨segs, hne, n, pn, hd, hdp, hnz, hre⟩ := (mem_collectFields t hnd [] r).mp hr
  rw [hre]
  exact hnz

/-- A record whose `parentID` is nonzero has a parent record: it lives at the
record's path shortened by one segment, carries that id, and its frequency is
strictly larger. -/
theorem record_parent_strict (adds : List (List String × Nat)) (r : FieldFrequency)
    (hpaths : ∀ a ∈ adds, a.1 ≠ [])
    (hr : r ∈ (buildTrie adds).collectFields []) (hpz : r.parentID ≠ 0) :
    ∃ rp, rp ∈ (buildTrie adds).collectFields [] ∧ rp.fid = r.parentID ∧
      rp.path = r.path.dropLast ∧ r.frequency < rp.frequency := by
  have hnd := buildTrie_NodupKeysT adds
  obtain ⟨segs, hne, n, pn, hd, hdp, hnz, hre⟩ := (mem_collectFields _ hnd [] r).mp hr
  have hpnz : pn.tid ≠ 0 := by
    rw [hre] at hpz
    exact hpz
  -- the shortened path cannot be empty: the root id stays 0
  have hdlne : segs.dropLast ≠ [] := by
    intro hdl
    have hmem2 : (segs.dropLast, pn.tid) ∈ adds := buildTrie_tid_mem adds _ pn hdp hpnz
    rw [hdl] at hmem2
    exact hpaths _ hmem2 rfl
  obtain ⟨ppn, hppn⟩ := descend_dropLast_isSome _ segs.dropLast pn hdp
  refine ⟨⟨pn.tid, ppn.tid, segs.dropLast, pn.frequency⟩, ?_, ?_, ?_, ?_⟩
  · exact (mem_collectFields _ hnd [] _).mpr
      ⟨segs.dropLast, hdlne, pn, ppn, hdp, hppn, hpnz, by simp⟩
  · rw [hre]
  · rw [hre]; simp
  · -- strictness: pn carries a test (1) plus all traffic into its children
    have hsok : NodeOK pn ∧ pn.InvAll := by
      cases hdle : segs.dropLast with
      | nil => cases hdlne hdle
      | cons s0 rest0 =>
        exact descend_strict rest0 (buildTrie adds) s0 pn (buildTrie_InvAll adds)
          (by rw [← hdle]; exact hdp)
    have hlast : segs.dropLast ++ [segs.getLast hne] = segs := List.dropLast_append_getLast hne
    have hchild : alookup pn.children (segs.getLast hne) = some n := by
      have h2 : (buildTrie adds).descend (segs.dropLast ++ [segs.getLast hne]) = some n := by
        rw [hlast]; exact hd
      rw [descend_append, hdp] at h2
      cases hcc : alookup pn.children (segs.getLast hne) with
      | none =>
        simp only [Option.some_bind, FieldTrie.descend, hcc] at h2
        exact h2
      | some c =>
        simp only [Option.some_bind, FieldTrie.descend, hcc] at h2
        rw [h2]
    have h3 : n.frequency ≤ sumFreq pn.children := freq_le_sumFreq _ _ _ hchild
    have h4 := hsok.1
    simp only [NodeOK, if_pos hpnz] at h4
    rw [hre]
    simp only
    omega

/-! # Lemmas: bits and the mask planner -/

theorem testBit_or_shift (eff : Nat) (i j : Nat) :
    (eff ||| 1 <<< i).testBit j = (eff.testBit j || decide (j = i)) := by
  rw [Nat.testBit_or, Nat.shiftLeft_eq, one_mul, Nat.testBit_two_pow]
  by_cases h : i = j <;> simp [h, eq_comm]

theorem bits_subset_le (a b : Nat) (h : ∀ j, a.testBit j = true → b.testBit j = true) :
    a ≤ b := by
  have hab : a &&& b = a := by
    apply Nat.eq_of_testBit_eq
    intro j
    rw [Nat.testBit_and]
    cases ha : a.testBit j
    · simp
    · simp [h j ha]
  calc a = a &&& b := hab.symm
    _ ≤ b := Nat.and_le_right

theorem effLoop_monotone (m : Nat) : ∀ (rest : List FieldFrequency) (i : Nat)
    (updates : List (Nat × Bool)) (eff : Nat) (j : Nat),
    eff.testBit j = true → (effLoop m rest i updates eff).testBit j = true := by
  intro rest
  induction rest with
  | nil => intro i updates eff j h; exact h
  | cons pt rest2 ih =>
    intro i updates eff j h
    simp only [effLoop]
    cases alookup (ainsert updates pt.fid false) pt.parentID with
    | none =>
      by_cases hb : m.testBit i
      · simp only [hb, if_pos]
        exact ih _ _ _ j (by rw [testBit_or_shift, h]; rfl)
      · simp only [hb]
        exact ih _ _ _ j h
    | some b =>
      cases b with
      | false => exact ih _ _ _ j h
      | true =>
        by_cases hb : m.testBit i
        · simp only [hb, if_pos]
          exact ih _ _ _ j (by rw [testBit_or_shift, h]; rfl)
        · simp only [hb]
          exact ih _ _ _ j h

theorem effLoop_subset (m : Nat) : ∀ (rest : List FieldFrequency) (i : Nat)
    (updates : List (Nat × Bool)) (eff : Nat) (j : Nat),
    (effLoop m rest i updates eff).testBit j = true →
    eff.testBit j = true ∨ (m.testBit j = true ∧ i ≤ j ∧ j < i + rest.length) := by
  intro rest
  induction rest with
  | nil => intro i updates eff j h; exact Or.inl h
  | cons pt rest2 ih =>
    intro i updates eff j h
    simp only [effLoop] at h
    have step : ∀ (u2 : List (Nat × Bool)),
        (effLoop m rest2 (i + 1) u2 eff).testBit j = true ∨
          (effLoop m rest2 (i + 1) u2 (eff ||| 1 <<< i)).testBit j = true ∧ m.testBit i = true →
        eff.testBit j = true ∨ (m.testBit j = true ∧ i ≤ j ∧ j < i + (pt :: rest2).length) := by
      intro u2 hc
      rcases hc with hc | ⟨hc, hmi⟩
      · rcases ih (i + 1) u2 eff j hc with h1 | h1
        · exact Or.inl h1
        · right
          simp only [List.length_cons]
          exact ⟨h1.1, by omega, by omega⟩
      · rcases ih (i + 1) u2 (eff ||| 1 <<< i) j hc with h1 | h1
        · rw [testBit_or_shift] at h1
          rcases Bool.or_eq_true_iff.mp h1 with h2 | h2
          · exact Or.inl h2
          · right
            have : j = i := by simpa using h2
            subst this
            simp only [List.length_cons]
            exact ⟨hmi, le_refl _, by omega⟩
        · right
          simp only [List.length_cons]
          exact ⟨h1.1, by omega, by omega⟩
    cases hx : alookup (ainsert updates pt.fid false) pt.parentID with
    | none =>
      rw [hx] at h
      by_cases hb : m.testBit i
      · simp only [hb, if_pos] at h
        exact step _ (Or.inr ⟨h, hb⟩)
      · simp only [hb] at h
        exact step _ (Or.inl h)
    | some b =>
      rw [hx] at h
      cases b with
      | false => exact step _ (Or.inl h)
      | true =>
        by_cases hb : m.testBit i
        · simp only [hb, if_pos] at h
          exact step _ (Or.inr ⟨h, hb⟩)
        · simp only [hb] at h
          exact step _ (Or.inl h)

theorem lt_two_pow_of_high_bits (m n : Nat) (h : ∀ i, n ≤ i → m.testBit i = false) :
    m < 2 ^ n := by
  have he : m = m % 2 ^ n := by
    apply Nat.eq_of_testBit_eq
    intro i
    rw [Nat.testBit_mod_two_pow]
    by_cases hi : i < n
    · simp [hi]
    · simp [hi, h i (by omega)]
  rw [he]
  exact Nat.mod_lt _ (by positivity)

theorem fid_index_inj (pts : List FieldFrequency)
    (hnd : (pts.map FieldFrequency.fid).Nodup) (j j' : Nat)
    (hj : j < pts.length) (hj' : j' < pts.length)
    (he : pts[j].fid = pts[j'].fid) : j = j' := by
  have hj2 : j < (pts.map FieldFrequency.fid).length := by simpa using hj
  have hj2' : j' < (pts.map FieldFrequency.fid).length := by simpa using hj'
  have h1 : (pts.map FieldFrequency.fid)[j] = (pts.map FieldFrequency.fid)[j'] := by
    simpa using he
  exact (List.Nodup.getElem_inj_iff hnd).mp h1

/-- The master run characterization of the `computeEffectiveMask` loop. -/
theorem effLoop_char_gen (m : Nat) (pts : List FieldFrequency)
    (hfz : ∀ pt ∈ pts, pt.fid ≠ 0)
    (hnd : (pts.map FieldFrequency.fid).Nodup) :
    ∀ (cnt i : Nat) (updates : List (Nat × Bool)) (eff : Nat),
    i + cnt = pts.length →
    (∀ (j : Nat) (hj : j < pts.length), j < i →
      alookup updates pts[j].fid = some (eff.testBit j)) →
    (∀ k b, alookup updates k = some b →
      ∃ (j : Nat) (hj : j < pts.length), j < i ∧ pts[j].fid = k) →
    (∀ j, eff.testBit j = true → j < i) →
    ∀ (idx : Nat) (hidx : idx < pts.length), i ≤ idx →
    ((pts[idx].parentID = 0 ∨
        ∀ (j : Nat) (hj : j < pts.length), j ≤ idx → pts[j].fid ≠ pts[idx].parentID) →
      (effLoop m (pts.drop i) i updates eff).testBit idx = m.testBit idx) ∧
    (∀ (j : Nat) (hj : j < pts.length), j < idx → pts[j].fid = pts[idx].parentID →
      (effLoop m (pts.drop i) i updates eff).testBit idx =
        (m.testBit idx && (effLoop m (pts.drop i) i updates eff).testBit j)) ∧
    (pts[idx].fid = pts[idx].parentID →
      (effLoop m (pts.drop i) i updates eff).testBit idx = false) := by
  intro cnt
  induction cnt with
  | zero =>
    intro i updates eff hcnt hbind hkeys heffhi idx hidx hge
    omega
  | succ cnt2 ih =>
    intro i updates eff hcnt hbind hkeys heffhi idx hidx hge
    have hilen : i < pts.length := by omega
    have hown : pts[i].fid ≠ 0 := hfz _ (List.getElem_mem hilen)
    rw [List.drop_eq_getElem_cons hilen]
    simp only [effLoop]
    -- the bit at position `i` of the accumulator is clear
    have heffi : eff.testBit i = false := by
      cases hb : eff.testBit i
      · rfl
      · exact absurd (heffhi i hb) (by omega)
    -- a uniform continuation: given the branch outcome, transfer the
    -- invariants and compute the clauses
    have step : ∀ (updates2 : List (Nat × Bool)) (eff2 : Nat),
        (∀ (j : Nat) (hj : j < pts.length), j < i + 1 →
          alookup updates2 pts[j].fid = some (eff2.testBit j)) →
        (∀ k b, alookup updates2 k = some b →
          ∃ (j : Nat) (hj : j < pts.length), j < i + 1 ∧ pts[j].fid = k) →
        (∀ j, eff2.testBit j = true → j < i + 1) →
        ∀ (idx2 : Nat) (hidx2 : idx2 < pts.length), i + 1 ≤ idx2 →
        ((pts[idx2].parentID = 0 ∨
            ∀ (j : Nat) (hj : j < pts.length), j ≤ idx2 → pts[j].fid ≠ pts[idx2].parentID) →
          (effLoop m (pts.drop (i + 1)) (i + 1) updates2 eff2).testBit idx2 = m.testBit idx2) ∧
        (∀ (j : Nat) (hj : j < pts.length), j < idx2 → pts[j].fid = pts[idx2].parentID →
          (effLoop m (pts.drop (i + 1)) (i + 1) updates2 eff2).testBit idx2 =
            (m.testBit idx2 &&
              (effLoop m (pts.drop (i + 1)) (i + 1) updates2 eff2).testBit j)) ∧
        (pts[idx2].fid = pts[idx2].parentID →
          (effLoop m (pts.drop (i + 1)) (i + 1) updates2 eff2).testBit idx2 = false) :=
      fun updates2 eff2 hb hk he => ih (i + 1) updates2 eff2 (by omega) hb hk he
    -- bits at positions ≤ i of a continuation run are frozen
    have hfrozen : ∀ (updates2 : List (Nat × Bool)) (eff2 : Nat) (j : Nat), j ≤ i →
        (effLoop m (pts.drop (i + 1)) (i + 1) updates2 eff2).testBit j = eff2.testBit j := by
      intro updates2 eff2 j hj
      cases hb : eff2.testBit j with
      | true => exact effLoop_monotone m _ _ _ _ j hb
      | false =>
        cases hb2 : (effLoop m (pts.drop (i + 1)) (i + 1) updates2 eff2).testBit j with
        | false => rfl
        | true =>
          rcases effLoop_subset m _ _ _ _ j hb2 with h1 | h1
          · rw [hb] at h1; cases h1
          · omega
    -- invariant transfers for the three possible post-step states
    have hbind2_base : ∀ (j : Nat) (hj : j < pts.length), j < i →
        alookup (ainsert updates pts[i].fid false) pts[j].fid = some (eff.testBit j) := by
      intro j hj hlt
      rw [alookup_ainsert_ne]
      · exact hbind j hj hlt
      · intro hcc
        exact absurd (fid_index_inj pts hnd j i hj hilen hcc) (by omega)
    have hbind2_skip : ∀ (j : Nat) (hj : j < pts.length), j < i + 1 →
        alookup (ainsert updates pts[i].fid false) pts[j].fid = some (eff.testBit j) := by
      intro j hj hlt
      by_cases hji : j = i
      · subst hji
        rw [alookup_ainsert_self, heffi]
      · exact hbind2_base j hj (by omega)
    have hkeys2_skip : ∀ k b, alookup (ainsert updates pts[i].fid false) k = some b →
        ∃ (j : Nat) (hj : j < pts.length), j < i + 1 ∧ pts[j].fid = k := by
      intro k b hk
      by_cases hki : k = pts[i].fid
      · exact ⟨i, hilen, by omega, hki.symm⟩
      · rw [alookup_ainsert_ne _ _ _ _ hki] at hk
        obtain ⟨j, hj, hlt, hfid⟩ := hkeys k b hk
        exact ⟨j, hj, by omega, hfid⟩
    have heffhi_skip : ∀ j, eff.testBit j = true → j < i + 1 := by
      intro j h
      have := heffhi j h
      omega
    have hbind2_set : ∀ (j : Nat) (hj : j < pts.length), j < i + 1 →
        alookup (ainsert (ainsert updates pts[i].fid false) pts[i].fid true) pts[j].fid =
          some ((eff ||| 1 <<< i).testBit j) := by
      intro j hj hlt
      by_cases hji : j = i
      · subst hji
        rw [alookup_ainsert_self, testBit_or_shift, heffi]
        simp
      · have hne : pts[j].fid ≠ pts[i].fid := by
          intro hcc
          exact absurd (fid_index_inj pts hnd j i hj hilen hcc) hji
        rw [alookup_ainsert_ne _ _ _ _ hne, alookup_ainsert_ne _ _ _ _ hne, testBit_or_shift]
        have hdj : (decide (j = i)) = false := by simp [hji]
        rw [hdj, Bool.or_false]
        exact hbind j hj (by omega)
    have hkeys2_set : ∀ k b,
        alookup (ainsert (ainsert updates pts[i].fid false) pts[i].fid true) k = some b →
        ∃ (j : Nat) (hj : j < pts.length), j < i + 1 ∧ pts[j].fid = k := by
      intro k b hk
      by_cases hki : k = pts[i].fid
      · exact ⟨i, hilen, by omega, hki.symm⟩
      · rw [alookup_ainsert_ne _ _ _ _ hki, alookup_ainsert_ne _ _ _ _ hki] at hk
        obtain ⟨j, hj, hlt, hfid⟩ := hkeys k b hk
        exact ⟨j, hj, by omega, hfid⟩
    have heffhi_set : ∀ j, (eff ||| 1 <<< i).testBit j = true → j < i + 1 := by
      intro j h
      rw [testBit_or_shift] at h
      rcases Bool.or_eq_true_iff.mp h with h | h
      · have := heffhi j h
        omega
      · have : j = i := by simpa using h
        omega
    by_cases hA : pts[i].parentID = pts[i].fid
    · -- the field is its own parent: decided absent, bit dropped
      have hscr : alookup (ainsert updates pts[i].fid false) pts[i].parentID = some false := by
        rw [hA, alookup_ainsert_self]
      simp only [hscr]
      by_cases hidxi : idx = i
      · subst hidxi
        refine ⟨?_, ?_, ?_⟩
        · intro hh
          exfalso
          rcases hh with hh | hh
          · rw [hh] at hA
            exact hown hA.symm
          · exact hh idx hidx (le_refl idx) hA.symm
        · intro j hj hlt hmatch
          exfalso
          rw [hA] at hmatch
          exact absurd (fid_index_inj pts hnd j idx hj hidx hmatch) (by omega)
        · intro _
          rw [hfrozen _ _ idx (le_refl idx)]
          exact heffi
      · exact step _ _ hbind2_skip hkeys2_skip heffhi_skip idx hidx (by omega)
    · by_cases hB : ∃ (j : Nat) (hj : j < pts.length), j < i ∧ pts[j].fid = pts[i].parentID
      · obtain ⟨j0, hj0len, hj0lt, hj0fid⟩ := hB
        have hj0ne : pts[i].parentID ≠ pts[i].fid := fun hcc => hA hcc
        have hscr : alookup (ainsert updates pts[i].fid false) pts[i].parentID =
            some (eff.testBit j0) := by
          rw [alookup_ainsert_ne _ _ _ _ hj0ne, ← hj0fid]
          exact hbind j0 hj0len hj0lt
        have hpz : pts[i].parentID ≠ 0 := by
          rw [← hj0fid]
          exact hfz _ (List.getElem_mem hj0len)
        cases heffj : eff.testBit j0 with
        | false =>
          rw [heffj] at hscr
          simp only [hscr]
          by_cases hidxi : idx = i
          · subst hidxi
            refine ⟨?_, ?_, ?_⟩
            · intro hh
              exfalso
              rcases hh with hh | hh
              · exact hpz hh
              · exact hh j0 hj0len (by omega) hj0fid
            · intro j hj hlt hmatch
              have hjj0 : j = j0 :=
                fid_index_inj pts hnd j j0 hj hj0len (by rw [hmatch, hj0fid])
              subst hjj0
              rw [hfrozen _ _ idx (le_refl idx), hfrozen _ _ j (by omega), heffi, heffj,
                Bool.and_false]
            · intro hh
              exact absurd hh.symm hA
          · exact step _ _ hbind2_skip hkeys2_skip heffhi_skip idx hidx (by omega)
        | true =>
          rw [heffj] at hscr
          simp only [hscr]
          by_cases hmi : m.testBit i
          · rw [if_pos hmi]
            by_cases hidxi : idx = i
            · subst hidxi
              have hresi : (effLoop m (pts.drop (idx + 1)) (idx + 1)
                  (ainsert (ainsert updates pts[idx].fid false) pts[idx].fid true)
                  (eff ||| 1 <<< idx)).testBit idx = true := by
                rw [hfrozen _ _ idx (le_refl idx), testBit_or_shift]
                simp
              refine ⟨?_, ?_, ?_⟩
              · intro hh
                rw [hresi, hmi]
              · intro j hj hlt hmatch
                have hjj0 : j = j0 :=
                  fid_index_inj pts hnd j j0 hj hj0len (by rw [hmatch, hj0fid])
                subst hjj0
                have hresj : (effLoop m (pts.drop (idx + 1)) (idx + 1)
                    (ainsert (ainsert updates pts[idx].fid false) pts[idx].fid true)
                    (eff ||| 1 <<< idx)).testBit j = true := by
                  rw [hfrozen _ _ j (by omega), testBit_or_shift, heffj]
                  rfl
                rw [hresi, hresj, hmi, Bool.and_true]
              · intro hh
                exact absurd hh.symm hA
            · exact step _ _ hbind2_set hkeys2_set heffhi_set idx hidx (by omega)
          · rw [if_neg hmi]
            by_cases hidxi : idx = i
            · subst hidxi
              have hresi : (effLoop m (pts.drop (idx + 1)) (idx + 1)
                  (ainsert updates pts[idx].fid false) eff).testBit idx = false := by
                rw [hfrozen _ _ idx (le_refl idx)]
                exact heffi
              refine ⟨?_, ?_, ?_⟩
              · intro hh
                rw [hresi]
                cases hb2 : m.testBit idx
                · rfl
                · exact absurd hb2 hmi
              · intro j hj hlt hmatch
                rw [hresi]
                cases hb2 : m.testBit idx
                · rfl
                · exact absurd hb2 hmi
              · intro hh
                exact absurd hh.symm hA
            · exact step _ _ hbind2_skip hkeys2_skip heffhi_skip idx hidx (by omega)
      · -- no earlier field carries the parent id: the lookup misses
        have hscr : alookup (ainsert updates pts[i].fid false) pts[i].parentID = none := by
          have hne : pts[i].parentID ≠ pts[i].fid := fun hcc => hA hcc
          rw [alookup_ainsert_ne _ _ _ _ hne]
          cases hcl : alookup updates pts[i].parentID with
          | none => rfl
          | some b =>
            exfalso
            obtain ⟨j, hj, hlt, hfid⟩ := hkeys _ b hcl
            exact hB ⟨j, hj, hlt, hfid⟩
        simp only [hscr]
        by_cases hmi : m.testBit i
        · rw [if_pos hmi]
          by_cases hidxi : idx = i
          · subst hidxi
            have hresi : (effLoop m (pts.drop (idx + 1)) (idx + 1)
                (ainsert (ainsert updates pts[idx].fid false) pts[idx].fid true)
                (eff ||| 1 <<< idx)).testBit idx = true := by
              rw [hfrozen _ _ idx (le_refl idx), testBit_or_shift]
              simp
            refine ⟨?_, ?_, ?_⟩
            · intro hh
              rw [hresi, hmi]
            · intro j hj hlt hmatch
              exact absurd ⟨j, hj, hlt, hmatch⟩ hB
            · intro hh
              exact absurd hh.symm hA
          · exact step _ _ hbind2_set hkeys2_set heffhi_set idx hidx (by omega)
        · rw [if_neg hmi]
          by_cases hidxi : idx = i
          · subst hidxi
            have hresi : (effLoop m (pts.drop (idx + 1)) (idx + 1)
                (ainsert updates pts[idx].fid false) eff).testBit idx = false := by
              rw [hfrozen _ _ idx (le_refl idx)]
              exact heffi
            refine ⟨?_, ?_, ?_⟩
            · intro hh
              rw [hresi]
              cases hb2 : m.testBit idx
              · rfl
              · exact absurd hb2 hmi
            · intro j hj hlt hmatch
              exact absurd ⟨j, hj, hlt, hmatch⟩ hB
            · intro hh
              exact absurd hh.symm hA
          · exact step _ _ hbind2_skip hkeys2_skip heffhi_skip idx hidx (by omega)

theorem computeEffectiveMask_char (m : Nat) (pts : List FieldFrequency)
    (hfz : ∀ pt ∈ pts, pt.fid ≠ 0)
    (hnd : (pts.map FieldFrequency.fid).Nodup) :
    EffChar m pts (computeEffectiveMask m pts) := by
  intro idx hidx
  have h := effLoop_char_gen m pts hfz hnd pts.length 0 [] 0 (by omega)
    (by intro j hj h0; omega)
    (by intro k b hk; simp [alookup] at hk)
    (by intro j h; simp [Nat.zero_testBit] at h)
    idx hidx (by omega)
  simpa [computeEffectiveMask, List.drop_zero] using h

theorem computeEffectiveMask_subset (m : Nat) (pts : List FieldFrequency) (j : Nat)
    (h : (computeEffectiveMask m pts).testBit j = true) :
    m.testBit j = true ∧ j < pts.length := by
  rcases effLoop_subset m pts 0 [] 0 j h with h1 | h1
  · simp [Nat.zero_testBit] at h1
  · exact ⟨h1.1, by omega⟩

theorem computeEffectiveMask_lt (m : Nat) (pts : List FieldFrequency) :
    computeEffectiveMask m pts < 2 ^ pts.length := by
  apply lt_two_pow_of_high_bits
  intro i hi
  cases hb : (computeEffectiveMask m pts).testBit i
  · rfl
  · have := (computeEffectiveMask_subset m pts i hb).2
    omega

theorem computeEffectiveMask_closed (m : Nat) (pts : List FieldFrequency)
    (hfz : ∀ pt ∈ pts, pt.fid ≠ 0)
    (hnd : (pts.map FieldFrequency.fid).Nodup) :
    ClosedMask (computeEffectiveMask m pts) pts := by
  intro idx hidx hbit
  have hc := computeEffectiveMask_char m pts hfz hnd idx hidx
  constructor
  · intro hfp
    rw [hc.2.2 hfp] at hbit
    cases hbit
  · intro j hj hlt hmatch
    have h2 := hc.2.1 j hj hlt hmatch
    rw [hbit] at h2
    exact (Bool.and_eq_true_iff.mp h2.symm).2

theorem computeEffectiveMask_of_closed (m : Nat) (pts : List FieldFrequency)
    (hfz : ∀ pt ∈ pts, pt.fid ≠ 0)
    (hnd : (pts.map FieldFrequency.fid).Nodup)
    (hm : m < 2 ^ pts.length) (hcl : ClosedMask m pts) :
    computeEffectiveMask m pts = m := by
  apply Nat.eq_of_testBit_eq
  intro j
  induction j using Nat.strong_induction_on with
  | _ j ihj =>
    by_cases hjlen : j < pts.length
    · have hc := computeEffectiveMask_char m pts hfz hnd j hjlen
      by_cases hex : ∃ (j2 : Nat) (hj2 : j2 < pts.length), j2 ≤ j ∧
          pts[j2].fid = pts[j].parentID
      · obtain ⟨j2, hj2, hle, hmatch⟩ := hex
        by_cases hown : j2 = j
        · subst hown
          rw [hc.2.2 hmatch]
          cases hb : m.testBit j2
          · rfl
          · exact absurd ((hcl j2 hj2 hb).1 hmatch) (fun _ => by trivial)
        · have hlt : j2 < j := by omega
          rw [hc.2.1 j2 hj2 hlt hmatch, ihj j2 hlt]
          cases hb : m.testBit j
          · rfl
          · rw [(hcl j hjlen hb).2 j2 hj2 hlt hmatch]
            rfl
      · apply hc.1
        right
        intro j2 hj2 hle hmatch
        exact hex ⟨j2, hj2, hle, hmatch⟩
    · cases hb : (computeEffectiveMask m pts).testBit j
      · rw [Nat.testBit_lt_two_pow]
        calc m < 2 ^ pts.length := hm
          _ ≤ 2 ^ j := Nat.pow_le_pow_right (by omega) (by omega)
      · have := (computeEffectiveMask_subset m pts j hb).2
        omega

theorem computeEffectiveMask_idem (m : Nat) (pts : List FieldFrequency)
    (hfz : ∀ pt ∈ pts, pt.fid ≠ 0)
    (hnd : (pts.map FieldFrequency.fid).Nodup) :
    computeEffectiveMask (computeEffectiveMask m pts) pts = computeEffectiveMask m pts :=
  computeEffectiveMask_of_closed _ pts hfz hnd (computeEffectiveMask_lt m pts)
    (computeEffectiveMask_closed m pts hfz hnd)

theorem computeEffectiveMask_le (m : Nat) (pts : List FieldFrequency) :
    computeEffectiveMask m pts ≤ m :=
  bits_subset_le _ _ (fun j h => (computeEffectiveMask_subset m pts j h).1)

theorem computeEffectiveMask_zero (pts : List FieldFrequency) :
    computeEffectiveMask 0 pts = 0 :=
  Nat.le_zero.mp (computeEffectiveMask_le 0 pts)

/-! # Lemmas: the `GenerateIndex` specialization loop -/

theorem genLoop_inv (a : Expr) (pf : List FieldFrequency)
    (hfz : ∀ pt ∈ pf, pt.fid ≠ 0)
    (hnd : (pf.map FieldFrequency.fid).Nodup) :
    ∀ (cnt i : Nat) (st : List (Nat × Nat) × List Expr),
    (∀ p ∈ st.1, p.1 < i ∧ computeEffectiveMask p.1 pf = p.1 ∧ p.2 < st.2.length ∧
      st.2[p.2]? = some (staticOptimize (newPresenceRewriterUpdates p.1 pf) a)) →
    (∀ k, k < i → computeEffectiveMask k pf = k → (alookup st.1 k).isSome = true) →
    (0 < i → alookup st.1 0 = some 0 ∧ st.2[0]? =
      some (staticOptimize (newPresenceRewriterUpdates 0 pf) a)) →
    (i = 0 → st.2 = []) →
    (∀ p ∈ (genLoop a pf i cnt st).1, p.1 < i + cnt ∧
      computeEffectiveMask p.1 pf = p.1 ∧ p.2 < (genLoop a pf i cnt st).2.length ∧
      (genLoop a pf i cnt st).2[p.2]? =
        some (staticOptimize (newPresenceRewriterUpdates p.1 pf) a)) ∧
    (∀ k, k < i + cnt → computeEffectiveMask k pf = k →
      (alookup (genLoop a pf i cnt st).1 k).isSome = true) ∧
    (0 < i + cnt → alookup (genLoop a pf i cnt st).1 0 = some 0 ∧
      (genLoop a pf i cnt st).2[0]? =
        some (staticOptimize (newPresenceRewriterUpdates 0 pf) a)) := by
  intro cnt
  induction cnt with
  | zero =>
    intro i st h1 h2 h3 h4
    exact ⟨fun p hp => h1 p hp, fun k hk => h2 k (by omega), fun h0 => h3 (by omega)⟩
  | succ cnt2 ih =>
    intro i st h1 h2 h3 h4
    simp only [genLoop]
    have hnext := ih (i + 1) (genStep a pf st i)
    have hstep : (∀ p ∈ (genStep a pf st i).1, p.1 < i + 1 ∧
        computeEffectiveMask p.1 pf = p.1 ∧ p.2 < (genStep a pf st i).2.length ∧
        (genStep a pf st i).2[p.2]? =
          some (staticOptimize (newPresenceRewriterUpdates p.1 pf) a)) ∧
        (∀ k, k < i + 1 → computeEffectiveMask k pf = k →
          (alookup (genStep a pf st i).1 k).isSome = true) ∧
        (0 < i + 1 → alookup (genStep a pf st i).1 0 = some 0 ∧
          (genStep a pf st i).2[0]? =
            some (staticOptimize (newPresenceRewriterUpdates 0 pf) a)) := by
      simp only [genStep]
      cases hlk : alookup st.1 (computeEffectiveMask i pf) with
      | some s =>
        refine ⟨fun p hp => ?_, fun k hk hke => ?_, fun h0 => ?_⟩
        · obtain ⟨ha, hb, hc, hd⟩ := h1 p hp
          exact ⟨by omega, hb, hc, hd⟩
        · by_cases hki : k = i
          · subst hki
            rw [hke] at hlk
            rw [hlk]
            rfl
          · exact h2 k (by omega) hke
        · by_cases hi0 : 0 < i
          · exact h3 hi0
          · -- i = 0: the lookup in the empty-start state cannot succeed
            have hieq : i = 0 := by omega
            subst hieq
            have hm := alookup_mem hlk
            have := (h1 _ hm).1
            omega
      | none =>
        refine ⟨fun p hp => ?_, fun k hk hke => ?_, fun h0 => ?_⟩
        · rcases mem_ainsert hp with hp1 | hp1
          · -- the freshly stored entry
            have heffi : computeEffectiveMask i pf = i := by
              have hle := computeEffectiveMask_le i pf
              rcases Nat.lt_or_ge (computeEffectiveMask i pf) i with hlt | hge
              · exfalso
                have hidem := computeEffectiveMask_idem i pf hfz hnd
                have := h2 (computeEffectiveMask i pf) hlt hidem
                rw [hlk] at this
                cases this
              · omega
            rw [hp1]
            refine ⟨by omega, heffi, by simp, ?_⟩
            simp only [List.length_append]
            rw [List.getElem?_concat_length]
          · obtain ⟨ha, hb, hc, hd⟩ := h1 p hp1
            refine ⟨by omega, hb, by simp only [List.length_append]; omega, ?_⟩
            rw [List.getElem?_append_left hc]
            exact hd
        · by_cases hki : k = i
          · subst hki
            rw [← hke, alookup_ainsert_self]
            rfl
          · rw [alookup_ainsert_ne]
            · exact h2 k (by omega) hke
            · -- k ≠ i as stored key
              intro hcc
              exact hki hcc
        · by_cases hi0 : 0 < i
          · obtain ⟨hz1, hz2⟩ := h3 hi0
            refine ⟨?_, ?_⟩
            · rw [alookup_ainsert_ne]
              · exact hz1
              · omega
            · have hlen0 : 0 < st.2.length := by
                have hm := alookup_mem hz1
                have := (h1 _ hm).2.2.1
                omega
              rw [List.getElem?_append_left hlen0]
              exact hz2
          · have hieq : i = 0 := by omega
            subst hieq
            -- first iteration: the stored entry is (0, |asts|) with |asts| = 0
            have hempty : st.1 = [] := by
              cases hst : st.1 with
              | nil => rfl
              | cons p rest =>
                exfalso
                have := (h1 p (by rw [hst]; exact List.mem_cons_self _ _)).1
                omega
            have heff0 : computeEffectiveMask 0 pf = 0 := computeEffectiveMask_zero pf
            rw [hempty]
            have hnil : st.2 = [] := h4 rfl
            rw [hnil]
            constructor
            · simp [ainsert, alookup]
            · simp
    have hvac : i + 1 = 0 → (genStep a pf st i).2 = [] := by omega
    exact ⟨fun p hp => by
        have := (hnext hstep.1 hstep.2.1 hstep.2.2 hvac).1 p hp
        exact ⟨by omega, this.2.1, this.2.2.1, this.2.2.2⟩,
      fun k hk hke => (hnext hstep.1 hstep.2.1 hstep.2.2 hvac).2.1 k (by omega) hke,
      fun h0 => (hnext hstep.1 hstep.2.1 hstep.2.2 hvac).2.2 (by omega)⟩

/-! # Lemmas: id provenance of the selected fields -/

theorem matchDescendants_eq_filter (p : Expr → Bool) (e : Expr) :
    matchDescendants p e = (subterms e).filter p := by
  induction e with
  | ident i n =>
    simp only [matchDescendants, subterms]
    cases hp : p (Expr.ident i n) <;> simp [List.filter, hp]
  | lit i v =>
    simp only [matchDescendants, subterms]
    cases hp : p (Expr.lit i v) <;> simp [List.filter, hp]
  | select i op f t ih =>
    simp only [matchDescendants, subterms, List.filter_cons, ih]
    cases hp : p (Expr.select i op f t) <;> simp [hp]
  | unop i f a ih =>
    simp only [matchDescendants, subterms, List.filter_cons, ih]
    cases hp : p (Expr.unop i f a) <;> simp [hp]
  | binop i f a b iha ihb =>
    simp only [matchDescendants, subterms, List.filter_cons, List.filter_append, iha, ihb]
    cases hp : p (Expr.binop i f a b) <;> simp [hp]
  | cond i c t e ihc iht ihe =>
    simp only [matchDescendants, subterms, List.filter_cons, List.filter_append, ihc, iht, ihe]
    cases hp : p (Expr.cond i c t e) <;> simp [hp, List.append_assoc]

theorem presenceAdds_ids_nodup (a : Expr) (hnd : (exprIds a).Nodup) :
    ((presenceAdds a).map Prod.snd).Nodup := by
  have h1 : (presenceAdds a).map Prod.snd =
      (matchDescendants presenceTestMatcher a).map Expr.eidOf := by
    simp [presenceAdds, List.map_map]
  rw [h1, matchDescendants_eq_filter]
  exact List.Nodup.sublist (List.Sublist.map _ (List.filter_sublist _)) hnd

theorem collect_paths_nodup : ∀ (t : FieldTrie), t.NodupKeysT → ∀ (pfx : List String),
    ((t.collectFields pfx).map FieldFrequency.path).Nodup := by
  intro t
  induction t using FieldTrie.indOn with
  | _ seg fr tid ch ih =>
    intro hnd pfx
    obtain ⟨hndk, hndr⟩ := (NodupKeysT_iff _).mp hnd
    simp only [children_mk] at hndk hndr
    rw [collectFields_mk]
    rw [List.flatMap_def, List.map_join, List.map_map, List.nodup_join]
    constructor
    · intro l hl
      simp only [List.mem_map, Function.comp] at hl
      obtain ⟨sc, hscm, hleq⟩ := hl
      obtain ⟨s, c⟩ := sc
      subst hleq
      rw [List.map_append]
      rw [List.nodup_append]
      refine ⟨?_, ih (s, c) hscm (hndr _ hscm) _, ?_⟩
      · by_cases hz : c.tid ≠ 0 <;> simp [hz]
      · intro pth hpth1 hpth2
        by_cases hz : c.tid ≠ 0
        · rw [if_pos hz] at hpth1
          simp only [List.map_cons, List.map_nil, List.mem_singleton] at hpth1
          simp only [List.mem_map] at hpth2
          obtain ⟨r, hrm, hreq⟩ := hpth2
          obtain ⟨segs, hne, n, pn, hd, hdp, hnz, hre⟩ :=
            (mem_collectFields c (hndr _ hscm) (pfx ++ [s]) r).mp hrm
          rw [hre] at hreq
          simp only at hreq
          rw [hpth1] at hreq
          have : segs = [] := by
            have hlen := congrArg List.length hreq
            simp only [List.length_append, List.length_cons] at hlen
            exact List.eq_nil_of_length_eq_zero (by omega)
          exact hne this
        · rw [if_neg hz] at hpth1
          simp at hpth1
    · -- records hanging under different children have different head segments
      have hshape : ∀ (s : String) (c : FieldTrie), (s, c) ∈ ch → ∀ q ∈
          (if c.tid ≠ 0 then [(⟨c.tid, tid, pfx ++ [s], c.frequency⟩ : FieldFrequency)]
            else []) ++ c.collectFields (pfx ++ [s]),
          ∃ suffix, q.path = (pfx ++ [s]) ++ suffix := by
        intro s c hmem q hq
        rcases List.mem_append.mp hq with hq1 | hq1
        · by_cases hz : c.tid ≠ 0
          · rw [if_pos hz] at hq1
            simp only [List.mem_singleton] at hq1
            exact ⟨[], by rw [hq1]; simp⟩
          · rw [if_neg hz] at hq1
            simp at hq1
        · obtain ⟨segs, hne, n, pn, hd, hdp, hnz, hre⟩ :=
            (mem_collectFields c (hndr _ hmem) (pfx ++ [s]) q).mp hq1
          exact ⟨segs, by rw [hre]⟩
      have hkey : ch.Pairwise (fun a b => a.1 ≠ b.1) := by
        have h5 := hndk
        rw [List.Nodup, List.pairwise_map] at h5
        exact h5
      rw [List.pairwise_map]
      refine List.Pairwise.imp_of_mem ?_ hkey
      intro sc1 sc2 h1 h2 hne12
      intro pth hp1 hp2
      obtain ⟨s1, c1⟩ := sc1
      obtain ⟨s2, c2⟩ := sc2
      simp only [Function.comp, List.mem_map] at hp1 hp2
      obtain ⟨q1, hq1m, hq1e⟩ := hp1
      obtain ⟨q2, hq2m, hq2e⟩ := hp2
      obtain ⟨suf1, hsuf1⟩ := hshape s1 c1 h1 q1 hq1m
      obtain ⟨suf2, hsuf2⟩ := hshape s2 c2 h2 q2 hq2m
      have hcat : (pfx ++ [s1]) ++ suf1 = (pfx ++ [s2]) ++ suf2 := by
        rw [← hsuf1, ← hsuf2, hq1e, hq2e]
      have h3 : s1 :: suf1 = s2 :: suf2 := by
        have h4 : pfx ++ (s1 :: suf1) = pfx ++ (s2 :: suf2) := by
          simpa [List.append_assoc] using hcat
        exact List.append_cancel_left h4
      injection h3 with h4 h5
      exact hne12 h4

theorem collect_fids_nodup (adds : List (List String × Nat))
    (hadds : (adds.map Prod.snd).Nodup) :
    (((buildTrie adds).collectFields []).map FieldFrequency.fid).Nodup := by
  have hrec : ((buildTrie adds).collectFields []).Nodup :=
    List.Nodup.of_map _ (collect_paths_nodup _ (buildTrie_NodupKeysT adds) [])
  refine List.Nodup.map_on ?_ hrec
  intro r1 h1 r2 h2 hfid
  exact collect_fid_inj adds hadds r1 r2 h1 h2 hfid

theorem findFrequent_fids_nodup (a : Expr) (hnd : (exprIds a).Nodup) :
    ((findFrequentPresenceFields a).map FieldFrequency.fid).Nodup := by
  have h1 := collect_fids_nodup (presenceAdds a) (presenceAdds_ids_nodup a hnd)
  have h2 : ((sortedPresenceFields (buildTrie (presenceAdds a))).map
      FieldFrequency.fid).Nodup :=
    (List.Perm.nodup_iff ((sortedPresenceFields_perm _).map _)).mpr h1
  have h3 : (findFrequentPresenceFields a).map FieldFrequency.fid =
      ((sortedPresenceFields (buildTrie (presenceAdds a))).map
        FieldFrequency.fid).take maxFieldPatterns := by
    simp [findFrequentPresenceFields, List.map_take]
  rw [h3]
  exact List.Nodup.sublist (List.take_sublist _ _) h2

theorem findFrequent_fid_ne_zero (a : Expr) :
    ∀ pt ∈ findFrequentPresenceFields a, pt.fid ≠ 0 := by
  intro pt hpt
  have h1 : pt ∈ sortedPresenceFields (buildTrie (presenceAdds a)) :=
    List.mem_of_mem_take hpt
  have h2 : pt ∈ (buildTrie (presenceAdds a)).collectFields [] :=
    (sortedPresenceFields_perm _).mem_iff.mp h1
  exact mem_collect_fid_ne_zero _ (buildTrie_NodupKeysT _) pt h2

/-! # Lemmas: the presence rewriter update map -/

theorem updatesLoop_lookup_other (m : Nat) : ∀ (rest : List FieldFrequency) (i : Nat)
    (u : List (Nat × Bool)) (k : Nat), (∀ pt ∈ rest, pt.fid ≠ k) →
    alookup (updatesLoop m rest i u) k = alookup u k := by
  intro rest
  induction rest with
  | nil => intro i u k h; rfl
  | cons pt rest2 ih =>
    intro i u k h
    have hne : k ≠ pt.fid := fun hcc => h pt (List.mem_cons_self _ _) hcc.symm
    by_cases hb : m.testBit i
    · simp only [updatesLoop, hb, if_pos]
      rw [ih (i + 1) _ k (fun q hq => h q (List.mem_cons_of_mem _ hq))]
      rw [alookup_ainsert_ne _ _ _ _ hne, alookup_ainsert_ne _ _ _ _ hne]
    · simp only [updatesLoop, hb, if_neg, Bool.false_eq_true, if_false]
      rw [ih (i + 1) _ k (fun q hq => h q (List.mem_cons_of_mem _ hq))]
      rw [alookup_ainsert_ne _ _ _ _ hne]

theorem updatesLoop_lookup (m : Nat) : ∀ (rest : List FieldFrequency) (i : Nat)
    (u : List (Nat × Bool)), (rest.map FieldFrequency.fid).Nodup →
    ∀ (j : Nat) (hj : j < rest.length),
    alookup (updatesLoop m rest i u) rest[j].fid = some (m.testBit (i + j)) := by
  intro rest
  induction rest with
  | nil => intro i u hnd j hj; cases hj
  | cons pt rest2 ih =>
    intro i u hnd j hj
    simp only [List.map_cons, List.nodup_cons] at hnd
    cases j with
    | zero =>
      have hother : ∀ q ∈ rest2, q.fid ≠ pt.fid := by
        intro q hq hcc
        exact hnd.1 (List.mem_map.mpr ⟨q, hq, hcc⟩)
      by_cases hb : m.testBit i
      · simp only [List.getElem_cons_zero, updatesLoop, hb, if_pos]
        rw [updatesLoop_lookup_other m rest2 (i + 1) _ pt.fid hother]
        rw [alookup_ainsert_self, Nat.add_zero, hb]
      · simp only [List.getElem_cons_zero, updatesLoop, hb, if_neg, Bool.false_eq_true, if_false]
        rw [updatesLoop_lookup_other m rest2 (i + 1) _ pt.fid hother]
        rw [alookup_ainsert_self, Nat.add_zero]
        cases hb2 : m.testBit i
        · rfl
        · exact absurd hb2 hb
    | succ j2 =>
      have := ih (i + 1) (if m.testBit i
          then ainsert (ainsert u pt.fid false) pt.fid true
          else ainsert u pt.fid false) hnd.2 j2 (by simpa using hj)
      by_cases hb : m.testBit i
      · simp only [List.getElem_cons_succ, updatesLoop, hb, if_pos] at this ⊢
        rw [this]
        congr 1
        congr 1
        omega
      · simp only [List.getElem_cons_succ, updatesLoop, hb, if_neg, Bool.false_eq_true, if_false]
          at this ⊢
        rw [this]
        congr 1
        congr 1
        omega

theorem updatesLoop_keys (m : Nat) : ∀ (rest : List FieldFrequency) (i : Nat)
    (u : List (Nat × Bool)) (k : Nat) (b : Bool),
    alookup (updatesLoop m rest i u) k = some b →
    (∃ pt ∈ rest, pt.fid = k) ∨ alookup u k = some b := by
  intro rest
  induction rest with
  | nil => intro i u k b h; exact Or.inr h
  | cons pt rest2 ih =>
    intro i u k b h
    by_cases hb : m.testBit i
    · simp only [updatesLoop, hb, if_pos] at h
      rcases ih (i + 1) _ k b h with h1 | h1
      · obtain ⟨q, hq, hfid⟩ := h1
        exact Or.inl ⟨q, List.mem_cons_of_mem _ hq, hfid⟩
      · by_cases hki : k = pt.fid
        · exact Or.inl ⟨pt, List.mem_cons_self _ _, hki.symm⟩
        · right
          rw [alookup_ainsert_ne _ _ _ _ hki, alookup_ainsert_ne _ _ _ _ hki] at h1
          exact h1
    · simp only [updatesLoop, hb, if_neg, Bool.false_eq_true, if_false] at h
      rcases ih (i + 1) _ k b h with h1 | h1
      · obtain ⟨q, hq, hfid⟩ := h1
        exact Or.inl ⟨q, List.mem_cons_of_mem _ hq, hfid⟩
      · by_cases hki : k = pt.fid
        · exact Or.inl ⟨pt, List.mem_cons_self _ _, hki.symm⟩
        · right
          rw [alookup_ainsert_ne _ _ _ _ hki] at h1
          exact h1

theorem newPresenceRewriterUpdates_lookup (m : Nat) (pf : List FieldFrequency)
    (hnd : (pf.map FieldFrequency.fid).Nodup) (j : Nat) (hj : j < pf.length) :
    alookup (newPresenceRewriterUpdates m pf) pf[j].fid = some (m.testBit j) := by
  have := updatesLoop_lookup m pf 0 [] hnd j hj
  simpa using this

theorem newPresenceRewriterUpdates_keys (m : Nat) (pf : List FieldFrequency)
    (k : Nat) (b : Bool) (h : alookup (newPresenceRewriterUpdates m pf) k = some b) :
    ∃ pt ∈ pf, pt.fid = k := by
  rcases updatesLoop_keys m pf 0 [] k b h with h1 | h1
  · exact h1
  · simp [alookup] at h1

/-! # Lemmas: the presence rewriter pass -/

theorem self_mem_subterms (e : Expr) : e ∈ subterms e := by
  cases e <;> simp [subterms]

/-- A node none of whose subterm ids is keyed is left untouched by the
rewriter. -/
theorem presenceRewrite_no_keys (u : List (Nat × Bool)) :
    ∀ e : Expr, (∀ t ∈ subterms e, alookup u t.eidOf = none) →
      presenceRewrite u e = e := by
  intro e
  induction e with
  | ident i n =>
    intro h
    have hh := h (.ident i n) (self_mem_subterms _)
    simp only [Expr.eidOf] at hh
    simp [presenceRewrite, hh]
  | lit i v =>
    intro h
    have hh := h (.lit i v) (self_mem_subterms _)
    simp only [Expr.eidOf] at hh
    simp [presenceRewrite, hh]
  | select i op f t ih =>
    intro h
    have hh := h (.select i op f t) (self_mem_subterms _)
    simp only [Expr.eidOf] at hh
    have hop := ih (fun t2 ht2 => h t2 (by simp only [subterms, List.mem_cons]; right; exact ht2))
    simp [presenceRewrite, hh, hop]
  | unop i f a ih =>
    intro h
    have hh := h (.unop i f a) (self_mem_subterms _)
    simp only [Expr.eidOf] at hh
    have ha := ih (fun t2 ht2 => h t2 (by simp only [subterms, List.mem_cons]; right; exact ht2))
    simp [presenceRewrite, hh, ha]
  | binop i f a b iha ihb =>
    intro h
    have hh := h (.binop i f a b) (self_mem_subterms _)
    simp only [Expr.eidOf] at hh
    have ha := iha (fun t2 ht2 => h t2 (by
      simp only [subterms, List.mem_cons, List.mem_append]; right; left; exact ht2))
    have hb := ihb (fun t2 ht2 => h t2 (by
      simp only [subterms, List.mem_cons, List.mem_append]; right; right; exact ht2))
    simp [presenceRewrite, hh, ha, hb]
  | cond i c t e ihc iht ihe =>
    intro h
    have hh := h (.cond i c t e) (self_mem_subterms _)
    simp only [Expr.eidOf] at hh
    have hc := ihc (fun t2 ht2 => h t2 (by
      simp only [subterms, List.mem_cons, List.mem_append]; right; left; left; exact ht2))
    have ht := iht (fun t2 ht2 => h t2 (by
      simp only [subterms, List.mem_cons, List.mem_append]; right; left; right; exact ht2))
    have he := ihe (fun t2 ht2 => h t2 (by
      simp only [subterms, List.mem_cons, List.mem_append]; right; right; exact ht2))
    simp [presenceRewrite, hh, hc, ht, he]

/-- A keyed node is replaced outright by the boolean literal the update map
assigns to its id (the id itself is preserved, as `SetKindCase` does). -/
theorem presenceRewrite_keyed (u : List (Nat × Bool)) (e : Expr) (b : Bool)
    (h : alookup u e.eidOf = some b) :
    presenceRewrite u e = .lit e.eidOf (.vbool b) := by
  cases e <;> simp only [Expr.eidOf] at h ⊢ <;> simp [presenceRewrite, h]

/-- In a rewritten tree, every surviving node whose id is keyed is the
boolean literal carrying the mapped value: no keyed node survives in its
original form. -/
theorem presenceRewrite_keys_replaced (u : List (Nat × Bool)) :
    ∀ e : Expr, ∀ t ∈ subterms (presenceRewrite u e), ∀ b,
      alookup u t.eidOf = some b → t = .lit t.eidOf (.vbool b) := by
  intro e
  induction e with
  | ident i n =>
    intro t ht b hb
    cases hlk : alookup u i with
    | some c =>
      simp only [presenceRewrite, hlk, subterms, List.mem_singleton] at ht
      subst ht
      simp only [Expr.eidOf] at hb
      rw [hlk] at hb
      injection hb with hbc
      rw [hbc]
      rfl
    | none =>
      simp only [presenceRewrite, hlk, subterms, List.mem_singleton] at ht
      subst ht
      simp only [Expr.eidOf] at hb
      rw [hlk] at hb
      exact absurd hb (by simp)
  | lit i v =>
    intro t ht b hb
    cases hlk : alookup u i with
    | some c =>
      simp only [presenceRewrite, hlk, subterms, List.mem_singleton] at ht
      subst ht
      simp only [Expr.eidOf] at hb
      rw [hlk] at hb
      injection hb with hbc
      rw [hbc]
      rfl
    | none =>
      simp only [presenceRewrite, hlk, subterms, List.mem_singleton] at ht
      subst ht
      simp only [Expr.eidOf] at hb
      rw [hlk] at hb
      exact absurd hb (by simp)
  | select i op f tst ih =>
    intro t ht b hb
    cases hlk : alookup u i with
    | some c =>
      simp only [presenceRewrite, hlk, subterms, List.mem_singleton] at ht
      subst ht
      simp only [Expr.eidOf] at hb
      rw [hlk] at hb
      injection hb with hbc
      rw [hbc]
      rfl
    | none =>
      simp only [presenceRewrite, hlk, subterms, List.mem_cons] at ht
      rcases ht with ht | ht
      · subst ht
        simp only [Expr.eidOf] at hb
        rw [hlk] at hb
        exact absurd hb (by simp)
      · exact ih t ht b hb
  | unop i f a ih =>
    intro t ht b hb
    cases hlk : alookup u i with
    | some c =>
      simp only [presenceRewrite, hlk, subterms, List.mem_singleton] at ht
      subst ht
      simp only [Expr.eidOf] at hb
      rw [hlk] at hb
      injection hb with hbc
      rw [hbc]
      rfl
    | none =>
      simp only [presenceRewrite, hlk, subterms, List.mem_cons] at ht
      rcases ht with ht | ht
      · subst ht
        simp only [Expr.eidOf] at hb
        rw [hlk] at hb
        exact absurd hb (by simp)
      · exact ih t ht b hb
  | binop i f a a2 iha ihb =>
    intro t ht b hb
    cases hlk : alookup u i with
    | some c =>
      simp only [presenceRewrite, hlk, subterms, List.mem_singleton] at ht
      subst ht
      simp only [Expr.eidOf] at hb
      rw [hlk] at hb
      injection hb with hbc
      rw [hbc]
      rfl
    | none =>
      simp only [presenceRewrite, hlk, subterms, List.mem_cons, List.mem_append] at ht
      rcases ht with ht | ht | ht
      · subst ht
        simp only [Expr.eidOf] at hb
        rw [hlk] at hb
        exact absurd hb (by simp)
      · exact iha t ht b hb
      · exact ihb t ht b hb
  | cond i c th el ihc iht ihe =>
    intro t ht b hb
    cases hlk : alookup u i with
    | some c2 =>
      simp only [presenceRewrite, hlk, subterms, List.mem_singleton] at ht
      subst ht
      simp only [Expr.eidOf] at hb
      rw [hlk] at hb
      injection hb with hbc
      rw [hbc]
      rfl
    | none =>
      simp only [presenceRewrite, hlk, subterms, List.mem_cons, List.mem_append] at ht
      rcases ht with ht | (ht | ht) | ht
      · subst ht
        simp only [Expr.eidOf] at hb
        rw [hlk] at hb
        exact absurd hb (by simp)
      · exact ihc t ht b hb
      · exact iht t ht b hb
      · exact ihe t ht b hb

/-- If the probe list holds a nil entry and every non-nil probe before it
resolves, the mask-assembly loop dereferences the nil probe: a Go panic. -/
theorem assembleMask_panic (act : Activation) :
    ∀ (pts : List (Option Probe)) (bit : Nat), none ∈ pts →
    (∀ p ∈ pts, ∀ q, p = some q → resolveProbe act q ≠ none) →
    assembleMask act pts bit = .panic := by
  intro pts
  induction pts with
  | nil =>
    intro bit h
    cases h
  | cons hd rest ih =>
    intro bit hmem hres
    cases hd with
    | none => rfl
    | some q =>
      have hq := hres (some q) (List.mem_cons_self _ _) q rfl
      cases hrq : resolveProbe act q with
      | none => exact absurd hrq hq
      | some b =>
        have hmem2 : none ∈ rest := by
          rcases List.mem_cons.mp hmem with h | h
          · exact absurd h (by simp)
          · exact h
        have hrec := ih (bit + 1) hmem2 (fun p hp => hres p (List.mem_cons_of_mem _ hp))
        simp only [assembleMask, hrq, hrec]

/-! # Lemmas: the constant folder and semantic preservation -/

theorem andVals_right_false (x : Option Val) :
    andVals x (some (.vbool false)) = some (.vbool false) := by
  rcases x with _ | v
  · rfl
  · rcases v with b | n | s | m
    · cases b <;> rfl
    · rfl
    · rfl
    · rfl

theorem orVals_right_true (x : Option Val) :
    orVals x (some (.vbool true)) = some (.vbool true) := by
  rcases x with _ | v
  · rfl
  · rcases v with b | n | s | m
    · cases b <;> rfl
    · rfl
    · rfl
    · rfl

theorem evalExpr_boolLitOf (act : Activation) (x : Expr) (b : Bool)
    (h : boolLitOf x = some b) : evalExpr act x = some (.vbool b) := by
  cases x with
  | lit i v =>
    cases v with
    | vbool b2 =>
      simp only [boolLitOf] at h
      injection h with h
      subst h
      rfl
    | vint n => exact absurd h (by simp [boolLitOf])
    | vstr s => exact absurd h (by simp [boolLitOf])
    | vmap m => exact absurd h (by simp [boolLitOf])
  | ident i n => exact absurd h (by simp [boolLitOf])
  | select i op f t => exact absurd h (by simp [boolLitOf])
  | unop i f a => exact absurd h (by simp [boolLitOf])
  | binop i f a b2 => exact absurd h (by simp [boolLitOf])
  | cond i c t e => exact absurd h (by simp [boolLitOf])

theorem evalExpr_foldNot (act : Activation) (i : Nat) (x : Expr) :
    evalExpr act (foldNot i x) = evalExpr act (.unop i "!_" x) := by
  rw [foldNot]
  cases h : boolLitOf x with
  | some b =>
    have hx := evalExpr_boolLitOf act x b h
    simp [evalExpr, notVal, hx]
  | none => rfl

theorem evalExpr_foldAnd (act : Activation) (i : Nat) (x y : Expr) :
    evalExpr act (foldAnd i x y) = evalExpr act (.binop i "_&&_" x y) := by
  rw [foldAnd]
  by_cases h1 : boolLitOf x = some false ∨ boolLitOf y = some false
  · rw [if_pos h1]
    rcases h1 with h1 | h1
    · have hx := evalExpr_boolLitOf act x false h1
      simp [evalExpr, andVals, hx]
    · have hy := evalExpr_boolLitOf act y false h1
      simp [evalExpr, andVals_right_false, hy]
  · rw [if_neg h1]
    by_cases h2 : boolLitOf x = some true ∧ boolLitOf y = some true
    · rw [if_pos h2]
      have hx := evalExpr_boolLitOf act x true h2.1
      have hy := evalExpr_boolLitOf act y true h2.2
      simp [evalExpr, andVals, hx, hy]
    · rw [if_neg h2]

theorem evalExpr_foldOr (act : Activation) (i : Nat) (x y : Expr) :
    evalExpr act (foldOr i x y) = evalExpr act (.binop i "_||_" x y) := by
  rw [foldOr]
  by_cases h1 : boolLitOf x = some true ∨ boolLitOf y = some true
  · rw [if_pos h1]
    rcases h1 with h1 | h1
    · have hx := evalExpr_boolLitOf act x true h1
      simp [evalExpr, orVals, hx]
    · have hy := evalExpr_boolLitOf act y true h1
      simp [evalExpr, orVals_right_true, hy]
  · rw [if_neg h1]
    by_cases h2 : boolLitOf x = some false ∧ boolLitOf y = some false
    · rw [if_pos h2]
      have hx := evalExpr_boolLitOf act x false h2.1
      have hy := evalExpr_boolLitOf act y false h2.2
      simp [evalExpr, orVals, hx, hy]
    · rw [if_neg h2]

theorem evalExpr_foldCond (act : Activation) (i : Nat) (x t2 e2 : Expr) :
    evalExpr act (foldCond i x t2 e2) = evalExpr act (.cond i x t2 e2) := by
  rw [foldCond]
  cases h : boolLitOf x with
  | some b =>
    have hx := evalExpr_boolLitOf act x b h
    cases b
    · simp [evalExpr, hx]
    · simp [evalExpr, hx]
  | none => rfl

theorem evalExpr_select_congr (act : Activation) (i : Nat) (f : String) (t : Bool)
    (a a2 : Expr) (h : evalExpr act a = evalExpr act a2) :
    evalExpr act (.select i a f t) = evalExpr act (.select i a2 f t) := by
  simp only [evalExpr, h]

theorem evalExpr_unop_congr (act : Activation) (i : Nat) (f : String)
    (a a2 : Expr) (h : evalExpr act a = evalExpr act a2) :
    evalExpr act (.unop i f a) = evalExpr act (.unop i f a2) := by
  simp only [evalExpr, h]

theorem evalExpr_binop_congr (act : Activation) (i : Nat) (f : String)
    (a a2 b b2 : Expr) (ha : evalExpr act a = evalExpr act a2)
    (hb : evalExpr act b = evalExpr act b2) :
    evalExpr act (.binop i f a b) = evalExpr act (.binop i f a2 b2) := by
  simp only [evalExpr, ha, hb]

theorem evalExpr_cond_congr (act : Activation) (i : Nat)
    (c c2 t t2 e e2 : Expr) (hc : evalExpr act c = evalExpr act c2)
    (ht : evalExpr act t = evalExpr act t2) (he : evalExpr act e = evalExpr act e2) :
    evalExpr act (.cond i c t e) = evalExpr act (.cond i c2 t2 e2) := by
  simp only [evalExpr, hc, ht, he]

/-- The modelled constant folder is semantics preserving for the reference
evaluator. -/
theorem evalExpr_foldExpr (act : Activation) : ∀ e : Expr,
    evalExpr act (foldExpr e) = evalExpr act e := by
  intro e
  induction e with
  | ident i n => rfl
  | lit i v => rfl
  | select i op f t ih =>
    simp only [foldExpr]
    exact evalExpr_select_congr act i f t _ op ih
  | unop i f a ih =>
    by_cases hf : f = "!_"
    · subst hf
      show evalExpr act (foldNot i (foldExpr a)) = evalExpr act (.unop i "!_" a)
      rw [evalExpr_foldNot]
      exact evalExpr_unop_congr act i "!_" _ a ih
    · simp only [foldExpr, if_neg hf]
      exact evalExpr_unop_congr act i f _ a ih
  | binop i f a b iha ihb =>
    by_cases hand : f = "_&&_"
    · subst hand
      show evalExpr act (foldAnd i (foldExpr a) (foldExpr b)) =
        evalExpr act (.binop i "_&&_" a b)
      rw [evalExpr_foldAnd]
      exact evalExpr_binop_congr act i "_&&_" _ a _ b iha ihb
    · by_cases hor : f = "_||_"
      · subst hor
        show evalExpr act (foldOr i (foldExpr a) (foldExpr b)) =
          evalExpr act (.binop i "_||_" a b)
        rw [evalExpr_foldOr]
        exact evalExpr_binop_congr act i "_||_" _ a _ b iha ihb
      · simp only [foldExpr, if_neg hand, if_neg hor]
        exact evalExpr_binop_congr act i f _ a _ b iha ihb
  | cond i c t e ihc iht ihe =>
    simp only [foldExpr, evalExpr_foldCond]
    exact evalExpr_cond_congr act i _ c _ t _ e ihc iht ihe

/-- Subterm membership is transitive. -/
theorem subterms_trans : ∀ a e t : Expr, e ∈ subterms a → t ∈ subterms e →
    t ∈ subterms a := by
  intro a
  induction a with
  | ident i n =>
    intro e t he ht
    simp only [subterms, List.mem_singleton] at he
    subst he
    exact ht
  | lit i v =>
    intro e t he ht
    simp only [subterms, List.mem_singleton] at he
    subst he
    exact ht
  | select i op f tst ih =>
    intro e t he ht
    simp only [subterms, List.mem_cons] at he ⊢
    rcases he with he | he
    · subst he
      simpa [subterms] using ht
    · exact Or.inr (ih e t he ht)
  | unop i f a ih =>
    intro e t he ht
    simp only [subterms, List.mem_cons] at he ⊢
    rcases he with he | he
    · subst he
      simpa [subterms] using ht
    · exact Or.inr (ih e t he ht)
  | binop i f a b iha ihb =>
    intro e t he ht
    simp only [subterms, List.mem_cons, List.mem_append] at he ⊢
    rcases he with he | he | he
    · subst he
      simpa [subterms] using ht
    · exact Or.inr (Or.inl (iha e t he ht))
    · exact Or.inr (Or.inr (ihb e t he ht))
  | cond i c th el ihc iht ihe =>
    intro e t he ht
    simp only [subterms, List.mem_cons, List.mem_append] at he ⊢
    rcases he with he | (he | he) | he
    · subst he
      simp only [subterms, List.mem_cons, List.mem_append] at ht
      exact ht
    · exact Or.inr (Or.inl (Or.inl (ihc e t he ht)))
    · exact Or.inr (Or.inl (Or.inr (iht e t he ht)))
    · exact Or.inr (Or.inr (ihe e t he ht))

/-- When every keyed node id of the tree evaluates to the boolean the update
map assigns to it, the presence rewrite preserves evaluation on every
subterm. -/
theorem presenceRewrite_eval_eq (act : Activation) (u : List (Nat × Bool)) (a : Expr)
    (hkey : ∀ (k : Nat) (b : Bool), alookup u k = some b →
      ∀ t ∈ subterms a, t.eidOf = k → evalExpr act t = some (.vbool b)) :
    ∀ e : Expr, e ∈ subterms a → evalExpr act (presenceRewrite u e) = evalExpr act e := by
  intro e
  induction e with
  | ident i n =>
    intro he
    cases hlk : alookup u i with
    | some b =>
      have := hkey i b hlk (.ident i n) he rfl
      simp only [presenceRewrite, hlk, this]
      rfl
    | none => simp [presenceRewrite, hlk]
  | lit i v =>
    intro he
    cases hlk : alookup u i with
    | some b =>
      have := hkey i b hlk (.lit i v) he rfl
      simp only [presenceRewrite, hlk, this]
      rfl
    | none => simp [presenceRewrite, hlk]
  | select i op f tst ih =>
    intro he
    cases hlk : alookup u i with
    | some b =>
      have := hkey i b hlk (.select i op f tst) he rfl
      simp only [presenceRewrite, hlk, this]
      rfl
    | none =>
      have hop : op ∈ subterms a :=
        subterms_trans a _ op he (List.mem_cons_of_mem _ (self_mem_subterms op))
      simp [presenceRewrite, hlk, evalExpr, ih hop]
  | unop i f arg ih =>
    intro he
    cases hlk : alookup u i with
    | some b =>
      have := hkey i b hlk (.unop i f arg) he rfl
      simp only [presenceRewrite, hlk, this]
      rfl
    | none =>
      have harg : arg ∈ subterms a :=
        subterms_trans a _ arg he (List.mem_cons_of_mem _ (self_mem_subterms arg))
      simp [presenceRewrite, hlk, evalExpr, ih harg]
  | binop i f lhs rhs ihl ihr =>
    intro he
    cases hlk : alookup u i with
    | some b =>
      have := hkey i b hlk (.binop i f lhs rhs) he rfl
      simp only [presenceRewrite, hlk, this]
      rfl
    | none =>
      have hl : lhs ∈ subterms a := subterms_trans a _ lhs he
        (by simp only [subterms, List.mem_cons, List.mem_append]
            exact Or.inr (Or.inl (self_mem_subterms lhs)))
      have hr : rhs ∈ subterms a := subterms_trans a _ rhs he
        (by simp only [subterms, List.mem_cons, List.mem_append]
            exact Or.inr (Or.inr (self_mem_subterms rhs)))
      simp [presenceRewrite, hlk, evalExpr, ihl hl, ihr hr]
  | cond i c th el ihc iht ihe =>
    intro he
    cases hlk : alookup u i with
    | some b =>
      have := hkey i b hlk (.cond i c th el) he rfl
      simp only [presenceRewrite, hlk, this]
      rfl
    | none =>
      have hc : c ∈ subterms a := subterms_trans a _ c he
        (by simp only [subterms, List.mem_cons, List.mem_append]
            exact Or.inr (Or.inl (Or.inl (self_mem_subterms c))))
      have ht : th ∈ subterms a := subterms_trans a _ th he
        (by simp only [subterms, List.mem_cons, List.mem_append]
            exact Or.inr (Or.inl (Or.inr (self_mem_subterms th))))
      have hel : el ∈ subterms a := subterms_trans a _ el he
        (by simp only [subterms, List.mem_cons, List.mem_append]
            exact Or.inr (Or.inr (self_mem_subterms el)))
      simp [presenceRewrite, hlk, evalExpr, ihc hc, iht ht, ihe hel]

/-- When every probe is present and resolves, the mask loop succeeds with
the mask whose bits on `[bit, bit + length)` are the probe answers. -/
theorem assembleMask_ok (act : Activation) :
    ∀ (l : List (Option Probe)) (bit : Nat) (pb : Nat → Bool),
    (∀ (j : Nat) (hj : j < l.length), ∃ q, l[j] = some q ∧
      resolveProbe act q = some (pb (bit + j))) →
    ∃ M, assembleMask act l bit = .ok M ∧
      ∀ i, M.testBit i = (decide (bit ≤ i) && decide (i < bit + l.length) && pb i) := by
  intro l
  induction l with
  | nil =>
    intro bit pb hres
    refine ⟨0, rfl, fun i => ?_⟩
    rw [Nat.zero_testBit]
    rcases Decidable.em (bit ≤ i) with h1 | h1
    · rw [decide_eq_false (by rw [List.length_nil]; omega : ¬i < bit + List.length [])]
      simp
    · rw [decide_eq_false h1]
      simp
  | cons hd rest ih =>
    intro bit pb hres
    obtain ⟨q0, hq0, hr0⟩ := hres 0 (by simp)
    simp only [List.getElem_cons_zero] at hq0
    subst hq0
    have hshift : ∀ (j : Nat) (hj : j < rest.length), ∃ q, rest[j] = some q ∧
        resolveProbe act q = some (pb (bit + 1 + j)) := by
      intro j hj
      obtain ⟨q, hq, hr⟩ := hres (j + 1) (by rw [List.length_cons]; omega)
      refine ⟨q, by simpa using hq, ?_⟩
      rw [hr]
      have harg : bit + (j + 1) = bit + 1 + j := by omega
      rw [harg]
    obtain ⟨M2, hM2, hbits⟩ := ih (bit + 1) pb hshift
    rw [Nat.add_zero] at hr0
    refine ⟨if pb bit then M2 ||| 1 <<< bit else M2, ?_, ?_⟩
    · simp only [assembleMask, hr0, hM2]
    · intro i
      rw [List.length_cons]
      cases hpb : pb bit
      · simp only [Bool.false_eq_true, if_false, hbits i]
        by_cases hib : i = bit
        · subst hib
          rw [decide_eq_false (by omega : ¬i + 1 ≤ i), hpb]
          simp
        · congr 2
          · rcases Decidable.em (bit + 1 ≤ i) with h | h
            · rw [decide_eq_true h, decide_eq_true (by omega : bit ≤ i)]
            · rw [decide_eq_false h, decide_eq_false (by omega : ¬bit ≤ i)]
          · rcases Decidable.em (i < bit + 1 + rest.length) with h | h
            · rw [decide_eq_true h, decide_eq_true (by omega : i < bit + (rest.length + 1))]
            · rw [decide_eq_false h,
                decide_eq_false (by omega : ¬i < bit + (rest.length + 1))]
      · simp only [if_true, testBit_or_shift, hbits i]
        by_cases hib : i = bit
        · subst hib
          rw [decide_eq_false (by omega : ¬i + 1 ≤ i), hpb, decide_eq_true rfl]
          simp only [Bool.false_and, Bool.and_false, Bool.false_or]
          rw [decide_eq_true (by omega : i ≤ i),
            decide_eq_true (by omega : i < i + (rest.length + 1))]
          rfl
        · rw [decide_eq_false (by omega : ¬i = bit)]
          simp only [Bool.or_false]
          congr 2
          · rcases Decidable.em (bit + 1 ≤ i) with h | h
            · rw [decide_eq_true h, decide_eq_true (by omega : bit ≤ i)]
            · rw [decide_eq_false h, decide_eq_false (by omega : ¬bit ≤ i)]
          · rcases Decidable.em (i < bit + 1 + rest.length) with h | h
            · rw [decide_eq_true h, decide_eq_true (by omega : i < bit + (rest.length + 1))]
            · rw [decide_eq_false h,
                decide_eq_false (by omega : ¬i < bit + (rest.length + 1))]

/-- The operand chain of a field qualification is a nonempty segment list. -/
theorem qualifiedFieldPathOp_ne_nil : ∀ e : Expr, isFieldQualification e = true →
    qualifiedFieldPathOp e ≠ [] := by
  intro e
  induction e with
  | ident i n => intro _ h; simp [qualifiedFieldPathOp] at h
  | lit i v => intro h; simp [isFieldQualification] at h
  | select i op f t ih =>
    intro _ h
    simp only [qualifiedFieldPathOp] at h
    rcases List.append_eq_nil.mp h with ⟨_, h2⟩
    cases h2
  | unop i f a ih => intro h; simp [isFieldQualification] at h
  | binop i f a b iha ihb => intro h; simp [isFieldQualification] at h
  | cond i c t e ihc iht ihe => intro h; simp [isFieldQualification] at h

/-- A located presence test contributes a qualified path of at least two
segments (the operand chain plus the tested field). -/
theorem presenceAdds_path_len (a : Expr) :
    ∀ p ∈ presenceAdds a, 2 ≤ p.1.length := by
  intro p hp
  simp only [presenceAdds, List.mem_map] at hp
  obtain ⟨pt, hpt, hpe⟩ := hp
  rw [matchDescendants_eq_filter, List.mem_filter] at hpt
  have hmatch := hpt.2
  cases pt with
  | select i op f t =>
    simp only [presenceTestMatcher, Bool.and_eq_true] at hmatch
    have hop := qualifiedFieldPathOp_ne_nil op hmatch.2
    rw [← hpe]
    simp only [qualifiedFieldPath, List.length_append, List.length_singleton]
    have : 1 ≤ (qualifiedFieldPathOp op).length := by
      cases hq : qualifiedFieldPathOp op with
      | nil => exact absurd hq hop
      | cons s r => simp
    omega
  | ident i n => simp [presenceTestMatcher] at hmatch
  | lit i v => simp [presenceTestMatcher] at hmatch
  | unop i f x => simp [presenceTestMatcher] at hmatch
  | binop i f x y => simp [presenceTestMatcher] at hmatch
  | cond i c t e => simp [presenceTestMatcher] at hmatch

/-- Also nonempty add paths, for the parent-record machinery. -/
theorem presenceAdds_path_ne_nil (a : Expr) :
    ∀ p ∈ presenceAdds a, p.1 ≠ [] := by
  intro p hp h
  have := presenceAdds_path_len a p hp
  rw [h] at this
  simp at this

/-- Every selected field record names a genuine presence test: its path has
at least two segments, and its id differs from its parent id. -/
theorem findFrequent_field_shape (a : Expr) (hnd : (exprIds a).Nodup) :
    ∀ f ∈ findFrequentPresenceFields a, 2 ≤ f.path.length ∧ f.fid ≠ f.parentID := by
  intro f hf
  have hmem : f ∈ sortedPresenceFields (buildTrie (presenceAdds a)) :=
    List.mem_of_mem_take hf
  have hndk := buildTrie_NodupKeysT (presenceAdds a)
  have hcol : f ∈ (buildTrie (presenceAdds a)).collectFields [] :=
    (sortedPresenceFields_perm _).subset hmem
  obtain ⟨segs, hne, n, pn, hd, hdp, hnz, hre⟩ :=
    (mem_collectFields _ hndk [] f).mp hcol
  have hmem2 : (segs, n.tid) ∈ presenceAdds a := buildTrie_tid_mem _ segs n hd hnz
  constructor
  · have := presenceAdds_path_len a (segs, n.tid) hmem2
    rw [hre]
    exact this
  · intro hfp
    by_cases hpz : f.parentID = 0
    · rw [hpz] at hfp
      exact mem_collect_fid_ne_zero _ hndk f hcol hfp
    · obtain ⟨rp, hrpm, hrpf, hrpp, hrfr⟩ :=
        record_parent_strict (presenceAdds a) f (presenceAdds_path_ne_nil a) hcol hpz
      have : f = rp := collect_fid_inj (presenceAdds a) (presenceAdds_ids_nodup a hnd)
        f rp hcol hrpm (by rw [hfp, hrpf])
      rw [← this] at hrfr
      omega

/-- The probe entry `NewIndexedProgram` builds for a field whose path splits
as `v :: rest` with at least two segments and a declared root. -/
theorem maskTests_entry (env : List String) (idx : IndexedAST) (j : Nat)
    (hj : j < idx.fields.length) (v : String) (rest : List String)
    (hpath : idx.fields[j].path = v :: rest) (hrest : rest ≠ [])
    (hv : v ∈ env) :
    (newIndexedProgram env idx).maskTests[j]? = some (some (v, rest)) := by
  simp only [newIndexedProgram, List.getElem?_map, List.getElem?_eq_getElem hj,
    Option.map_some']
  have hplen : ¬(FieldPath idx.fields[j]).length < 2 := by
    simp only [FieldPath, hpath]
    cases rest with
    | nil => exact absurd rfl hrest
    | cons s r => simp
  rw [if_neg hplen]
  have hfp : FieldPath idx.fields[j] = v :: rest := hpath
  rw [hfp]
  show some (if v ∈ env then some (v, rest) else none) = some (some (v, rest))
  rw [if_pos hv]

/-! # Claim theorems -/

/-- C9: in any field trie built from the empty trie by a sequence of
`add(field, id)` operations, every node's frequency is greater than or equal
to the frequency of each of its descendants (the node at nonempty path `s1`
versus the node at `s1 ++ s2`); moreover `add` increments the frequency of
every node along the path and sets the id on the terminal node, a duplicate
full path overwriting the prior id. -/
theorem trie_frequency_antitone_and_terminal_overwrite
    (adds : List (List String × Nat)) (s1 s2 : List String) (n1 n2 : FieldTrie)
    (h1 : s1 ≠ []) (hd1 : (buildTrie adds).descend s1 = some n1)
    (hd2 : (buildTrie adds).descend (s1 ++ s2) = some n2) :
    n2.frequency ≤ n1.frequency ∧
      (∀ (t : FieldTrie) (p : List String) (pid : Nat),
        ∃ n, (t.addSegs p pid).descend p = some n ∧ n.tid = pid) := by
  constructor
  · rw [descend_append, hd1] at hd2
    simp only [Option.some_bind] at hd2
    have hok : NodeOK n1 ∧ n1.InvAll := by
      cases hs1 : s1 with
      | nil => cases h1 hs1
      | cons s rest =>
        exact descend_strict rest (buildTrie adds) s n1 (buildTrie_InvAll adds)
          (by rw [← hs1]; exact hd1)
    exact descend_freq_le s2 n1 n2 hok.1 hok.2 hd2
  · exact fun t p pid => addSegs_descend_self p t pid

/-- Witness for C9 at a concrete trie: `add("a.b", 1)` then `add("a.b.c", 2)`
gives the node at `a` frequency 2 and the node at `a.b` frequency 2. -/
theorem trie_frequency_witness :
    (["a"] : List String) ≠ [] ∧
    ∃ n1 n2, (buildTrie [(["a", "b"], 1), (["a", "b", "c"], 2)]).descend ["a"] = some n1 ∧
      (buildTrie [(["a", "b"], 1), (["a", "b", "c"], 2)]).descend (["a"] ++ ["b"]) = some n2 ∧
      n2.frequency ≤ n1.frequency := by
  refine ⟨by simp, _, _, rfl, rfl, ?_⟩
  exact (trie_frequency_antitone_and_terminal_overwrite
    [(["a", "b"], 1), (["a", "b", "c"], 2)] ["a"] ["b"] _ _ (by simp) rfl rfl).1

/-- C4 counterexample: with presence tests `a.b` (id 1) and `a.b.c.d` (id 2),
the record for `a.b.c.d` is emitted with `parentId = 0`, although the nearest
enclosing presence test on a strict prefix of its path exists (`a.b`, id 1,
as the trie node at `["a","b"]` shows). -/
theorem sortedPresenceFields_parent_skip_level :
    (sortedPresenceFields (buildTrie [(["a", "b"], 1), (["a", "b", "c", "d"], 2)])).map
        (fun r => (r.fid, r.parentID, r.path)) =
      [(1, 0, ["a", "b"]), (2, 0, ["a", "b", "c", "d"])] ∧
    ((buildTrie [(["a", "b"], 1), (["a", "b", "c", "d"], 2)]).descend ["a", "b"]).map
        FieldTrie.tid = some 1 := by
  constructor <;> rfl

/-- C4 amended: every record emitted by `sortedPresenceFields` carries as
`parentId` the id stored on the trie node at the *immediate* strict prefix of
its field path (the path shortened by exactly one segment) — which is the
nearest enclosing presence test only when that test sits on the immediate
prefix, and 0 otherwise. -/
theorem sortedPresenceFields_parentID_immediate
    (adds : List (List String × Nat)) (r : FieldFrequency)
    (hr : r ∈ sortedPresenceFields (buildTrie adds)) :
    r.path ≠ [] ∧
    ∃ n pn, (buildTrie adds).descend r.path = some n ∧ n.tid = r.fid ∧
      (buildTrie adds).descend r.path.dropLast = some pn ∧ pn.tid = r.parentID ∧
      r.frequency = n.frequency := by
  obtain ⟨segs, hne, n, pn, hd, hdp, hnz, hre⟩ :=
    (mem_sortedPresenceFields _ (buildTrie_NodupKeysT adds) r).mp hr
  subst hre
  exact ⟨hne, n, pn, hd, rfl, hdp, rfl, rfl⟩

/-- Witness for the amended C4 at the concrete skip-level trie. -/
theorem sortedPresenceFields_parentID_immediate_witness :
    ((⟨2, 0, ["a", "b", "c", "d"], 1⟩ : FieldFrequency) ∈
      sortedPresenceFields (buildTrie [(["a", "b"], 1), (["a", "b", "c", "d"], 2)])) ∧
    ((["a", "b", "c", "d"] : List String) ≠ [] ∧
    ∃ n pn, (buildTrie [(["a", "b"], 1), (["a", "b", "c", "d"], 2)]).descend
        ["a", "b", "c", "d"] = some n ∧ n.tid = 2 ∧
      (buildTrie [(["a", "b"], 1), (["a", "b", "c", "d"], 2)]).descend
        ["a", "b", "c"] = some pn ∧ pn.tid = 0 ∧ (1 : Nat) = n.frequency) := by
  refine ⟨by decide, ?_⟩
  exact sortedPresenceFields_parentID_immediate
    [(["a", "b"], 1), (["a", "b", "c", "d"], 2)] ⟨2, 0, ["a", "b", "c", "d"], 1⟩ (by decide)

/-- C6: `sortedPresenceFields` returns its records sorted by descending
frequency with ties broken by ascending id; consequently, in the
selected-fields list (the first `maxFieldPatterns` records) every field whose
`parentId` equals another selected field's id appears at a strictly higher
index than that parent.  The additions are assumed to carry pairwise distinct
ids (node ids are unique in an AST) on nonempty paths. -/
theorem sortedPresenceFields_sorted_and_parent_dominance
    (adds : List (List String × Nat))
    (hndi : (adds.map Prod.snd).Nodup)
    (hpaths : ∀ a ∈ adds, a.1 ≠ []) :
    (∀ (i j : Fin (sortedPresenceFields (buildTrie adds)).length), i < j →
      ffLE ((sortedPresenceFields (buildTrie adds)).get i)
        ((sortedPresenceFields (buildTrie adds)).get j)) ∧
    (∀ (i j : Nat)
      (hi : i < ((sortedPresenceFields (buildTrie adds)).take maxFieldPatterns).length)
      (hj : j < ((sortedPresenceFields (buildTrie adds)).take maxFieldPatterns).length),
      ((sortedPresenceFields (buildTrie adds)).take maxFieldPatterns)[i].parentID =
        ((sortedPresenceFields (buildTrie adds)).take maxFieldPatterns)[j].fid → j < i) := by
  have hsorted : ∀ (i j : Fin (sortedPresenceFields (buildTrie adds)).length), i < j →
      ffLE ((sortedPresenceFields (buildTrie adds)).get i)
        ((sortedPresenceFields (buildTrie adds)).get j) :=
    fun i j hij => List.pairwise_iff_get.mp (sortedPresenceFields_sorted (buildTrie adds)) i j hij
  refine ⟨hsorted, ?_⟩
  intro i j hi hj heq
  rw [List.getElem_take, List.getElem_take] at heq
  have hi2 : i < (sortedPresenceFields (buildTrie adds)).length := by
    simp only [List.length_take] at hi; omega
  have hj2 : j < (sortedPresenceFields (buildTrie adds)).length := by
    simp only [List.length_take] at hj; omega
  have hFim : (sortedPresenceFields (buildTrie adds))[i] ∈
      (buildTrie adds).collectFields [] :=
    (sortedPresenceFields_perm (buildTrie adds)).mem_iff.mp (List.getElem_mem hi2)
  have hFjm : (sortedPresenceFields (buildTrie adds))[j] ∈
      (buildTrie adds).collectFields [] :=
    (sortedPresenceFields_perm (buildTrie adds)).mem_iff.mp (List.getElem_mem hj2)
  have hjfid : (sortedPresenceFields (buildTrie adds))[j].fid ≠ 0 :=
    mem_collect_fid_ne_zero _ (buildTrie_NodupKeysT adds) _ hFjm
  have hpz : (sortedPresenceFields (buildTrie adds))[i].parentID ≠ 0 := by
    rw [heq]; exact hjfid
  obtain ⟨rp, hrpm, hrpfid, hrppath, hfreq⟩ :=
    record_parent_strict adds _ hpaths hFim hpz
  have hrpj : rp = (sortedPresenceFields (buildTrie adds))[j] :=
    collect_fid_inj adds hndi rp _ hrpm hFjm (by rw [hrpfid, heq])
  rw [hrpj] at hfreq
  -- the parent has strictly larger frequency, so it must come earlier
  by_contra hcon
  push_neg at hcon
  rcases Nat.lt_or_ge i j with hlt | hge
  · have := hsorted ⟨i, hi2⟩ ⟨j, hj2⟩ hlt
    simp only [List.get_eq_getElem] at this
    rcases this with h | h
    · omega
    · omega
  · have hij : i = j := by omega
    subst hij
    omega

/-- C8: on an AST with no presence tests, `GenerateIndex` returns an
`IndexedAST` with empty fields, `maskToSlot = {0 → 0}` and a single AST equal
to the input unchanged. -/
theorem generateIndex_no_presence_tests (a : Expr)
    (h : matchDescendants presenceTestMatcher a = []) :
    generateIndex a = ⟨[], [(0, 0)], [a]⟩ := by
  have hf : findFrequentPresenceFields a = [] := by
    rw [findFrequentPresenceFields, presenceAdds, h]
    rfl
  rw [generateIndex, hf]
  rfl

/-- Witness for C8 at `x + 1`. -/
theorem generateIndex_no_presence_tests_witness :
    matchDescendants presenceTestMatcher (.binop 3 "_+_" (.ident 1 "x") (.lit 2 (.vint 1)))
      = [] ∧
    generateIndex (.binop 3 "_+_" (.ident 1 "x") (.lit 2 (.vint 1))) =
      ⟨[], [(0, 0)], [.binop 3 "_+_" (.ident 1 "x") (.lit 2 (.vint 1))]⟩ :=
  ⟨rfl, generateIndex_no_presence_tests _ rfl⟩

/-- C7 counterexample: when the AST has no presence tests (`N = 0`),
`GenerateIndex` stores the input *unchanged* in slot 0, not the
constant-folded rewrite: on `!true` slot 0 keeps `!true`, while rewriting
with the (empty) all-false update map and folding yields `false`. -/
theorem generateIndex_slot_zero_unfolded :
    (generateIndex (.unop 1 "!_" (.lit 2 (.vbool true)))).asts[0]? =
      some (.unop 1 "!_" (.lit 2 (.vbool true))) ∧
    staticOptimize
        (newPresenceRewriterUpdates 0 (generateIndex (.unop 1 "!_"
          (.lit 2 (.vbool true)))).fields)
        (.unop 1 "!_" (.lit 2 (.vbool true))) = .lit 1 (.vbool false) ∧
    (Expr.unop 1 "!_" (.lit 2 (.vbool true))) ≠ .lit 1 (.vbool false) := by
  refine ⟨rfl, rfl, by decide⟩

/-- C7 amended: `maskToSlot` maps raw mask `0` to slot `0` in every
`IndexedAst`; and whenever at least one presence field is selected, the AST
in slot 0 is the input with every selected presence test rewritten under the
all-absent update map (which sends every selected field id to `false`) and
then constant-folded.  With no selected fields, slot 0 is the input
unchanged. -/
theorem generateIndex_slot_zero (a : Expr) (hnd : (exprIds a).Nodup) :
    alookup (generateIndex a).maskToASTSlot 0 = some 0 ∧
    ((generateIndex a).fields ≠ [] →
      (generateIndex a).asts[0]? =
        some (staticOptimize (newPresenceRewriterUpdates 0 (generateIndex a).fields) a) ∧
      ∀ (j : Nat) (hj : j < (generateIndex a).fields.length),
        alookup (newPresenceRewriterUpdates 0 (generateIndex a).fields)
          ((generateIndex a).fields[j].fid) = some false) ∧
    ((generateIndex a).fields = [] → (generateIndex a).asts = [a]) := by
  have hfz := findFrequent_fid_ne_zero a
  have hfnd := findFrequent_fids_nodup a hnd
  by_cases hemp : (findFrequentPresenceFields a).length = 0
  · have hnil : findFrequentPresenceFields a = [] := List.eq_nil_of_length_eq_zero hemp
    rw [generateIndex, if_pos (by rw [hnil]; rfl)]
    refine ⟨by simp [alookup], fun hcon => absurd rfl hcon, fun _ => rfl⟩
  · have hgen : generateIndex a =
        ⟨findFrequentPresenceFields a,
          (generateIndexLoop a (findFrequentPresenceFields a)).1,
          (generateIndexLoop a (findFrequentPresenceFields a)).2⟩ := by
      rw [generateIndex, if_neg hemp]
    have hinv := genLoop_inv a (findFrequentPresenceFields a) hfz hfnd
      (2 ^ (findFrequentPresenceFields a).length) 0 ([], [])
      (by intro p hp; cases hp) (by intro k hk; omega) (by intro h0; omega)
      (fun _ => rfl)
    have hpos : 0 < 2 ^ (findFrequentPresenceFields a).length := by positivity
    obtain ⟨hz1, hz2⟩ := hinv.2.2 (by omega)
    rw [hgen]
    refine ⟨hz1, fun _ => ⟨hz2, fun j hj => ?_⟩, fun hcon => absurd ?_ hemp⟩
    · have := newPresenceRewriterUpdates_lookup 0 (findFrequentPresenceFields a) hfnd j hj
      rw [this, Nat.zero_testBit]
    · rw [show findFrequentPresenceFields a = [] from hcon]
      rfl

/-- Witness for the amended C7 at the S1 AST `has(a.b) ? a : b`. -/
theorem generateIndex_slot_zero_witness :
    (exprIds (Expr.cond 5 (.select 2 (.ident 1 "a") "b" true)
        (.ident 3 "a") (.ident 4 "b"))).Nodup ∧
    alookup (generateIndex (Expr.cond 5 (.select 2 (.ident 1 "a") "b" true)
        (.ident 3 "a") (.ident 4 "b"))).maskToASTSlot 0 = some 0 :=
  ⟨by decide,
    (generateIndex_slot_zero (Expr.cond 5 (.select 2 (.ident 1 "a") "b" true)
      (.ident 3 "a") (.ident 4 "b")) (by decide)).1⟩

/-- Witness for C6 at the concrete trie of S3 (`a.b` id 2 freq 2, `a.b.c`
id 5 freq 1, `b.c` id 11 freq 1). -/
theorem sortedPresenceFields_sorted_witness :
    ((([(["a", "b"], 2), (["a", "b", "c"], 5), (["b", "c"], 11)] :
        List (List String × Nat)).map Prod.snd).Nodup ∧
      (∀ a ∈ ([(["a", "b"], 2), (["a", "b", "c"], 5), (["b", "c"], 11)] :
        List (List String × Nat)), a.1 ≠ [])) ∧
    (∀ (i j : Nat)
      (hi : i < ((sortedPresenceFields (buildTrie
        [(["a", "b"], 2), (["a", "b", "c"], 5), (["b", "c"], 11)])).take
          maxFieldPatterns).length)
      (hj : j < ((sortedPresenceFields (buildTrie
        [(["a", "b"], 2), (["a", "b", "c"], 5), (["b", "c"], 11)])).take
          maxFieldPatterns).length),
      ((sortedPresenceFields (buildTrie
        [(["a", "b"], 2), (["a", "b", "c"], 5), (["b", "c"], 11)])).take
          maxFieldPatterns)[i].parentID =
        ((sortedPresenceFields (buildTrie
          [(["a", "b"], 2), (["a", "b", "c"], 5), (["b", "c"], 11)])).take
            maxFieldPatterns)[j].fid → j < i) :=
  ⟨⟨by decide, by decide⟩,
    (sortedPresenceFields_sorted_and_parent_dominance
      [(["a", "b"], 2), (["a", "b", "c"], 5), (["b", "c"], 11)]
      (by decide) (by decide)).2⟩

/-- C5: for every specialization recorded by `GenerateIndex` (raw mask `m`
bound to slot `s`), `m` equals its own effective mask (so the mask the
rewriter receives is the effective mask of the specialization), the update
map built for it assigns to each selected field `F[i]`'s node id the boolean
`testBit m i`, and the rewrite pass replaces exactly the keyed nodes: a node
whose id is keyed becomes the mapped boolean literal, a tree with no keyed
subterm id is returned unchanged, and in the rewritten input no keyed node
survives in its original form. -/
theorem specialization_updates_exact (a : Expr) (hnd : (exprIds a).Nodup)
    (m s : Nat) (hms : (m, s) ∈ (generateIndex a).maskToASTSlot) :
    computeEffectiveMask m (generateIndex a).fields = m ∧
    (∀ (i : Nat) (hi : i < (generateIndex a).fields.length),
      alookup (newPresenceRewriterUpdates m (generateIndex a).fields)
        ((generateIndex a).fields[i]).fid = some (m.testBit i)) ∧
    (∀ (e : Expr) (b : Bool),
      alookup (newPresenceRewriterUpdates m (generateIndex a).fields) e.eidOf = some b →
      presenceRewrite (newPresenceRewriterUpdates m (generateIndex a).fields) e =
        .lit e.eidOf (.vbool b)) ∧
    (∀ e : Expr, (∀ t ∈ subterms e,
        alookup (newPresenceRewriterUpdates m (generateIndex a).fields) t.eidOf = none) →
      presenceRewrite (newPresenceRewriterUpdates m (generateIndex a).fields) e = e) ∧
    (∀ t ∈ subterms (presenceRewrite
        (newPresenceRewriterUpdates m (generateIndex a).fields) a), ∀ b,
      alookup (newPresenceRewriterUpdates m (generateIndex a).fields) t.eidOf = some b →
      t = .lit t.eidOf (.vbool b)) := by
  have hfz := findFrequent_fid_ne_zero a
  have hfnd := findFrequent_fids_nodup a hnd
  have hmain : computeEffectiveMask m (generateIndex a).fields = m ∧
      (∀ (i : Nat) (hi : i < (generateIndex a).fields.length),
        alookup (newPresenceRewriterUpdates m (generateIndex a).fields)
          ((generateIndex a).fields[i]).fid = some (m.testBit i)) := by
    by_cases hemp : (findFrequentPresenceFields a).length = 0
    · have hnil : findFrequentPresenceFields a = [] := List.eq_nil_of_length_eq_zero hemp
      have hgen : generateIndex a = ⟨[], [(0, 0)], [a]⟩ := by
        rw [generateIndex, if_pos (by rw [hnil]; rfl)]
      rw [hgen] at hms ⊢
      have hpair : (m, s) = (0, 0) := by simpa using hms
      have hm0 : m = 0 := by injection hpair with h1 h2
      subst hm0
      exact ⟨computeEffectiveMask_zero _, fun i hi => absurd hi (by simp)⟩
    · have hgen : generateIndex a =
          ⟨findFrequentPresenceFields a,
            (generateIndexLoop a (findFrequentPresenceFields a)).1,
            (generateIndexLoop a (findFrequentPresenceFields a)).2⟩ := by
        rw [generateIndex, if_neg hemp]
      rw [hgen] at hms ⊢
      have hinv := genLoop_inv a (findFrequentPresenceFields a) hfz hfnd
        (2 ^ (findFrequentPresenceFields a).length) 0 ([], [])
        (by intro p hp; cases hp) (by intro k hk; omega) (by intro h0; omega)
        (fun _ => rfl)
      exact ⟨(hinv.1 (m, s) hms).2.1,
        fun i hi => newPresenceRewriterUpdates_lookup m (findFrequentPresenceFields a) hfnd i hi⟩
  exact ⟨hmain.1, hmain.2,
    fun e b hb => presenceRewrite_keyed _ e b hb,
    fun e he => presenceRewrite_no_keys _ e he,
    fun t ht b hb => presenceRewrite_keys_replaced _ a t ht b hb⟩

/-- Witness for C5 at the first `TestGenerateIndex` expression
`has(a.b) ? a : b` and its stored specialization for mask `1`. -/
theorem specialization_updates_exact_witness :
    ((exprIds (Expr.cond 5 (.select 2 (.ident 1 "a") "b" true)
        (.ident 3 "a") (.ident 4 "b"))).Nodup ∧
      ((1 : Nat), (1 : Nat)) ∈ (generateIndex (Expr.cond 5
        (.select 2 (.ident 1 "a") "b" true)
        (.ident 3 "a") (.ident 4 "b"))).maskToASTSlot) ∧
    computeEffectiveMask 1 (generateIndex (Expr.cond 5
      (.select 2 (.ident 1 "a") "b" true)
      (.ident 3 "a") (.ident 4 "b"))).fields = 1 :=
  ⟨⟨by decide, by decide⟩,
    (specialization_updates_exact
      (Expr.cond 5 (.select 2 (.ident 1 "a") "b" true) (.ident 3 "a") (.ident 4 "b"))
      (by decide) 1 1 (by decide)).1⟩

/-- C10: when the assembled runtime mask is not a key of `maskToSlot`, the
Go map read yields the zero default, so `Eval` dispatches to slot 0 (the
all-absent specialization) and returns exactly that program's outcome — no
error is produced by the missed lookup itself. -/
theorem eval_missing_mask_defaults_to_slot_zero
    (prg : IndexedProgram) (act : Activation) (mask : Nat) (p0 : Expr)
    (h1 : assembleMask act prg.maskTests 0 = .ok mask)
    (h2 : alookup prg.maskToASTSlot mask = none)
    (h3 : prg.programs.get? 0 = some p0) :
    alookupD prg.maskToASTSlot mask 0 = 0 ∧
    prg.Eval act = referenceEval p0 act := by
  have hd : alookupD prg.maskToASTSlot mask 0 = 0 := by
    rw [alookupD, h2]
    rfl
  refine ⟨hd, ?_⟩
  rw [IndexedProgram.Eval, h1]
  simp only [hd, h3]
  rw [referenceEval]

/-- Witness for C10: an indexed program whose only stored mask is `5`, run
on an empty probe list assembling mask `0`. -/
theorem eval_missing_mask_defaults_witness :
    assembleMask [] (IndexedProgram.mk [(5, 1)] [] [.lit 1 (.vint 7)]).maskTests 0 =
      .ok 0 ∧
    alookup (IndexedProgram.mk [(5, 1)] [] [.lit 1 (.vint 7)]).maskToASTSlot 0 = none ∧
    (IndexedProgram.mk [(5, 1)] [] [.lit 1 (.vint 7)]).programs.get? 0 =
      some (.lit 1 (.vint 7)) ∧
    (IndexedProgram.mk [(5, 1)] [] [.lit 1 (.vint 7)]).Eval [] =
      referenceEval (.lit 1 (.vint 7)) [] :=
  ⟨rfl, rfl, rfl,
    (eval_missing_mask_defaults_to_slot_zero
      (IndexedProgram.mk [(5, 1)] [] [.lit 1 (.vint 7)]) [] 0 (.lit 1 (.vint 7))
      rfl rfl rfl).2⟩

/-- C1 counterexample: semantic preservation fails unconditionally.  On
`has(z.b) ? 1 : 2` compiled against an environment that does not declare
`z`, with `z = {b: 0}` supplied at runtime, the indexed program panics on
its nil probe while the ordinary program returns `1`. -/
theorem indexed_program_not_semantics_preserving :
    ∃ (env : List String) (a : Expr) (act : Activation),
      (newIndexedProgram env (generateIndex a)).Eval act ≠ referenceEval a act :=
  ⟨[], astZ, [("z", .vmap [("b", .vint 0)])], by decide⟩

/-- C1 amended: the indexed program agrees with the ordinary program on
every input satisfying the side conditions the implementation relies on:
the AST's node ids are distinct; every selected field's path roots at a
declared variable and its probe resolves to some boolean `pb j`; each probe
answer agrees with the evaluation of every presence-test node it stands
for; and probe answers respect parent presence (a present child field
implies its parent field present). -/
theorem indexed_eval_preserves (env : List String) (a : Expr) (act : Activation)
    (pb : Nat → Bool)
    (hnd : (exprIds a).Nodup)
    (hfield : ∀ (j : Nat) (hj : j < (findFrequentPresenceFields a).length),
      ∃ v rest, (findFrequentPresenceFields a)[j].path = v :: rest ∧ v ∈ env ∧
        resolveProbe act (v, rest) = some (pb j))
    (hagree : ∀ (j : Nat) (hj : j < (findFrequentPresenceFields a).length),
      ∀ t ∈ subterms a, t.eidOf = (findFrequentPresenceFields a)[j].fid →
        evalExpr act t = some (.vbool (pb j)))
    (hpar : ∀ (j j2 : Nat) (hj : j < (findFrequentPresenceFields a).length)
      (hj2 : j2 < (findFrequentPresenceFields a).length),
      (findFrequentPresenceFields a)[j2].fid = (findFrequentPresenceFields a)[j].parentID →
      pb j = true → pb j2 = true) :
    (newIndexedProgram env (generateIndex a)).Eval act = referenceEval a act := by
  have hfz := findFrequent_fid_ne_zero a
  have hfnd := findFrequent_fids_nodup a hnd
  by_cases hemp : (findFrequentPresenceFields a).length = 0
  · have hnil : findFrequentPresenceFields a = [] := List.eq_nil_of_length_eq_zero hemp
    have hgen : generateIndex a = ⟨[], [(0, 0)], [a]⟩ := by
      rw [generateIndex, if_pos (by rw [hnil]; rfl)]
    rw [hgen]
    cases hv : evalExpr act a with
    | none =>
      simp [IndexedProgram.Eval, newIndexedProgram, assembleMask, alookupD, alookup,
        referenceEval, hv]
    | some v =>
      simp [IndexedProgram.Eval, newIndexedProgram, assembleMask, alookupD, alookup,
        referenceEval, hv]
  · have hgen : generateIndex a =
        ⟨findFrequentPresenceFields a,
          (generateIndexLoop a (findFrequentPresenceFields a)).1,
          (generateIndexLoop a (findFrequentPresenceFields a)).2⟩ := by
      rw [generateIndex, if_neg hemp]
    have hfieldsF : (generateIndex a).fields = findFrequentPresenceFields a := by
      rw [hgen]
    have hslot : (newIndexedProgram env (generateIndex a)).maskToASTSlot =
        (generateIndexLoop a (findFrequentPresenceFields a)).1 := by
      rw [newIndexedProgram, hgen]
    have hprogs : (newIndexedProgram env (generateIndex a)).programs =
        (generateIndexLoop a (findFrequentPresenceFields a)).2 := by
      rw [newIndexedProgram, hgen]
    have hmtlen : (newIndexedProgram env (generateIndex a)).maskTests.length =
        (findFrequentPresenceFields a).length := by
      rw [newIndexedProgram]
      rw [List.length_map, hfieldsF]
    have hshape := findFrequent_field_shape a hnd
    -- every probe entry is present and resolves to the promised answer
    have hprobes : ∀ (j : Nat)
        (hj : j < (newIndexedProgram env (generateIndex a)).maskTests.length),
        ∃ q, (newIndexedProgram env (generateIndex a)).maskTests[j] = some q ∧
          resolveProbe act q = some (pb (0 + j)) := by
      intro j hj
      have hjF : j < (findFrequentPresenceFields a).length := by rwa [hmtlen] at hj
      obtain ⟨v, rest, hpath, hv, hres⟩ := hfield j hjF
      have hmemF : (findFrequentPresenceFields a)[j] ∈ findFrequentPresenceFields a :=
        List.getElem_mem _
      have hrest : rest ≠ [] := by
        intro h0
        have h2 := (hshape _ hmemF).1
        rw [hpath, h0] at h2
        simp at h2
      have hjg : j < (generateIndex a).fields.length := by
        rw [hfieldsF]
        exact hjF
      have hpathg : (generateIndex a).fields[j].path = v :: rest := by
        rw [List.getElem_of_eq hfieldsF hjg]
        exact hpath
      have hms := maskTests_entry env (generateIndex a) j hjg v rest hpathg hrest hv
      have hg := List.getElem?_eq_getElem hj
      rw [hg] at hms
      injection hms with hms
      refine ⟨(v, rest), hms, ?_⟩
      rw [hres, Nat.zero_add]
    obtain ⟨M, hM, hMbits⟩ :=
      assembleMask_ok act (newIndexedProgram env (generateIndex a)).maskTests 0 pb hprobes
    have hMb : ∀ i, M.testBit i =
        (decide (i < (findFrequentPresenceFields a).length) && pb i) := by
      intro i
      rw [hMbits i, decide_eq_true (Nat.zero_le i), Nat.zero_add, hmtlen]
      simp
    have hMlt : M < 2 ^ (findFrequentPresenceFields a).length := by
      apply lt_two_pow_of_high_bits
      intro i hi
      rw [hMb i, decide_eq_false (by omega)]
      simp
    have hMclosed : ClosedMask M (findFrequentPresenceFields a) := by
      intro idx hidx hbit
      have hpbidx : pb idx = true := by
        rw [hMb idx, decide_eq_true hidx] at hbit
        simpa using hbit
      refine ⟨(hshape _ (List.getElem_mem _)).2, ?_⟩
      intro j hj hjlt hfid
      rw [hMb j, decide_eq_true hj, hpar idx j hidx hj hfid hpbidx]
      rfl
    have heff : computeEffectiveMask M (findFrequentPresenceFields a) = M :=
      computeEffectiveMask_of_closed M _ hfz hfnd hMlt hMclosed
    have hinv := genLoop_inv a (findFrequentPresenceFields a) hfz hfnd
      (2 ^ (findFrequentPresenceFields a).length) 0 ([], [])
      (by intro p hp; cases hp) (by intro k hk; omega) (by intro h0; omega)
      (fun _ => rfl)
    have hcov := hinv.2.1 M (by omega) heff
    obtain ⟨s, hs⟩ := Option.isSome_iff_exists.mp hcov
    have hmem := alookup_mem hs
    obtain ⟨hlt, hfix, hslen, hast⟩ := hinv.1 (M, s) hmem
    -- the dispatched specialization evaluates like the input
    have hsem : evalExpr act (staticOptimize
        (newPresenceRewriterUpdates M (findFrequentPresenceFields a)) a) =
        evalExpr act a := by
      rw [staticOptimize, evalExpr_foldExpr]
      apply presenceRewrite_eval_eq act _ a
      · intro k b hkb t ht hte
        obtain ⟨pt, hptF, hptfid⟩ :=
          newPresenceRewriterUpdates_keys M (findFrequentPresenceFields a) k b hkb
        obtain ⟨j, hjF, hptj⟩ := List.mem_iff_getElem.mp hptF
        have hlkj := newPresenceRewriterUpdates_lookup M (findFrequentPresenceFields a)
          hfnd j hjF
        have hkj : (findFrequentPresenceFields a)[j].fid = k := by rw [hptj, hptfid]
        rw [hkj] at hlkj
        rw [hkb] at hlkj
        injection hlkj with hbj
        have hpbj : M.testBit j = pb j := by
          rw [hMb j, decide_eq_true hjF]
          simp
        rw [hbj, hpbj]
        exact hagree j hjF t ht (by rw [hte, hkj])
      · exact self_mem_subterms a
    -- run the indexed evaluator
    have hidx : alookupD (newIndexedProgram env (generateIndex a)).maskToASTSlot M 0 = s := by
      rw [alookupD, hslot, generateIndexLoop, hs]
      rfl
    have hget : (generateIndexLoop a (findFrequentPresenceFields a)).2.get? s =
        some (staticOptimize (newPresenceRewriterUpdates M (findFrequentPresenceFields a)) a) := by
      rw [List.get?_eq_getElem?]
      exact hast
    rw [IndexedProgram.Eval, hM]
    show (match (newIndexedProgram env (generateIndex a)).programs.get?
        (alookupD (newIndexedProgram env (generateIndex a)).maskToASTSlot M 0) with
      | none => PRes.panic
      | some p =>
        match evalExpr act p with
        | none => PRes.err
        | some v => PRes.ok v) = referenceEval a act
    rw [hidx, hprogs, hget]
    show (match evalExpr act (staticOptimize
        (newPresenceRewriterUpdates M (findFrequentPresenceFields a)) a) with
      | none => PRes.err
      | some v => PRes.ok v) = referenceEval a act
    rw [hsem, referenceEval]

/-- Witness for the amended C1 at `has(a.b) ? a : b` with both roots
declared and `a = {b: 1}`, `b = {}` supplied at runtime. -/
theorem indexed_eval_preserves_witness :
    (exprIds astS1).Nodup ∧
    (newIndexedProgram ["a", "b"] (generateIndex astS1)).Eval
      [("a", .vmap [("b", .vint 1)]), ("b", .vmap [])] =
      referenceEval astS1 [("a", .vmap [("b", .vint 1)]), ("b", .vmap [])] := by
  refine ⟨by decide, ?_⟩
  apply indexed_eval_preserves ["a", "b"] astS1
    [("a", .vmap [("b", .vint 1)]), ("b", .vmap [])] (fun _ => true) (by decide)
  · intro j hj
    have hlen : (findFrequentPresenceFields astS1).length = 1 := by decide
    have hj0 : j = 0 := by omega
    subst hj0
    exact ⟨"a", ["b"], rfl, by decide, rfl⟩
  · intro j hj
    have hlen : (findFrequentPresenceFields astS1).length = 1 := by decide
    have hj0 : j = 0 := by omega
    subst hj0
    exact (by decide : ∀ t ∈ subterms astS1, t.eidOf = 2 →
      evalExpr [("a", .vmap [("b", .vint 1)]), ("b", .vmap [])] t = some (.vbool true))
  · intro j j2 hj hj2 h hpb
    have hlen : (findFrequentPresenceFields astS1).length = 1 := by decide
    have hj0 : j = 0 := by omega
    have hj20 : j2 = 0 := by omega
    subst hj0
    subst hj20
    have h2 : (2 : Nat) = 0 := h
    exact absurd h2 (by decide)

/-- C3 counterexample: the omission is *not* benign at request time.  On
`has(z.b) ? 1 : 2` with `z` undeclared, `NewIndexedProgram` leaves a nil
probe; evaluating with `z = {b: 0}` bound at runtime panics on the nil
dereference while the reference program returns `1`. -/
theorem unknown_root_probe_disagrees :
    (newIndexedProgram [] (generateIndex astZ)).maskTests = [none] ∧
    (newIndexedProgram [] (generateIndex astZ)).Eval
      [("z", .vmap [("b", .vint 0)])] = .panic ∧
    referenceEval astZ [("z", .vmap [("b", .vint 0)])] = .ok (.vint 1) ∧
    (PRes.panic ≠ .ok (.vint 1)) :=
  ⟨rfl, rfl, rfl, by decide⟩

/-- C3 amended: when a selected field's root variable is unknown to the
environment, `NewIndexedProgram` does omit that probe without error — the
program is still built, with the slot map and compiled ASTs intact and a nil
entry in `maskTests` — but at request time any activation whose other probes
all resolve makes `Eval` dereference the nil probe and panic; it does not
degrade to the always-absent behavior. -/
theorem unknown_root_probe_omitted_panics (env : List String) (idx : IndexedAST)
    (j : Nat) (hj : j < idx.fields.length) (v : String) (rest : List String)
    (hpath : FieldPath idx.fields[j] = v :: rest)
    (hv : v ∉ env) :
    ((newIndexedProgram env idx).maskTests[j]? = some none ∧
     (newIndexedProgram env idx).programs = idx.asts ∧
     (newIndexedProgram env idx).maskToASTSlot = idx.maskToASTSlot) ∧
    ∀ act : Activation,
      (∀ p ∈ (newIndexedProgram env idx).maskTests, ∀ q, p = some q →
        resolveProbe act q ≠ none) →
      (newIndexedProgram env idx).Eval act = .panic := by
  have hentry : (newIndexedProgram env idx).maskTests[j]? = some none := by
    simp only [newIndexedProgram, List.getElem?_map, List.getElem?_eq_getElem hj,
      Option.map_some']
    by_cases hlen : (FieldPath idx.fields[j]).length < 2
    · rw [if_pos hlen]
    · rw [if_neg hlen, hpath]
      show some (if v ∈ env then some (v, rest) else none) = some none
      rw [if_neg hv]
  refine ⟨⟨hentry, rfl, rfl⟩, fun act hres => ?_⟩
  have hmem : none ∈ (newIndexedProgram env idx).maskTests := by
    have := List.getElem?_mem hentry
    simpa using this
  rw [IndexedProgram.Eval, assembleMask_panic act _ 0 hmem hres]

/-- Witness for the amended C3 at `has(z.b) ? 1 : 2` with an empty
environment and `z = {b: 0}` bound at runtime. -/
theorem unknown_root_probe_omitted_panics_witness :
    (0 < (generateIndex astZ).fields.length ∧
      "z" ∉ ([] : List String)) ∧
    ((newIndexedProgram [] (generateIndex astZ)).maskTests[0]? = some none ∧
      (newIndexedProgram [] (generateIndex astZ)).Eval
        [("z", .vmap [("b", .vint 0)])] = .panic) := by
  have h := unknown_root_probe_omitted_panics [] (generateIndex astZ) 0 (by decide)
    "z" ["b"] rfl (by decide)
  refine ⟨⟨by decide, by decide⟩, h.1.1, h.2 [("z", .vmap [("b", .vint 0)])] ?_⟩
  intro p hp q hq
  have hp2 : p ∈ [(none : Option Probe)] := hp
  rw [List.mem_singleton] at hp2
  subst hp2
  cases hq

/-- C2: refuted on the fourth `TestGenerateIndex` expression
(`has(a.b) && has(a.b.c) ? a.b.c : !has(b.c) ? b.c : c.d`, three selected
fields).  Raw masks `2` and `6` lie in `[0, 2^3)` but are *not* keys of the
generated `maskToSlot`: the loop `continue`s on an already-seen effective
mask without recording the raw mask.  The equivalence half fails with them:
`effective(2) = effective(0) = 0` yet `maskToSlot` maps `0` and not `2`. -/
theorem generateIndex_mask_coverage_gap :
    (generateIndex astS3).fields.length = 3 ∧
    alookup (generateIndex astS3).maskToASTSlot 2 = none ∧
    alookup (generateIndex astS3).maskToASTSlot 6 = none ∧
    computeEffectiveMask 2 (generateIndex astS3).fields = 0 ∧
    computeEffectiveMask 0 (generateIndex astS3).fields = 0 ∧
    alookup (generateIndex astS3).maskToASTSlot 0 = some 0 :=
  ⟨rfl, rfl, rfl, rfl, rfl, rfl⟩

end CelIndexer
